import Mathlib

/-!
Verification of the Ai2Human text-humanization backend.

This file shallowly embeds the Python services of the repository
(`text_analytics_service.py`, `text_comparison_service.py`,
`batch_processing_service.py`, `routes/humanizer.py`) as Lean
definitions over `List Char` / `ℚ` / `ℝ`, and proves or refutes the
spec's testable properties about them.

Modelling conventions:
* strings are `List Char`; Python `str.lower` is modelled by
  `Char.toLower` (the texts handled by the service are ASCII);
* Python floats are modelled by exact rationals (`ℚ`), except
  `statistics.stdev` (a real square root), whose result is modelled in
  `ℝ` via `Real.sqrt`;
* Python `round(x, n)` (round-half-to-even) is modelled exactly by
  `roundTo` below;
* `random.uniform`/`random.random` draws and thread-completion order are
  explicit parameters of the embedded functions;
* Python dicts holding per-section analysis results are structures, a
  section that yields `{'error': ...}` is `Option.none`.
-/

namespace Ai2Human

/-! ## Python `round` (banker's rounding) on `ℚ` and `ℝ` -/

/-- Round-half-to-even to an integer, as Python's builtin `round` does
on exact values. -/
def roundHalfEven (x : ℚ) : ℤ :=
  if x - ⌊x⌋ < 1/2 then ⌊x⌋
  else if 1/2 < x - ⌊x⌋ then ⌊x⌋ + 1
  else if Even ⌊x⌋ then ⌊x⌋ else ⌊x⌋ + 1

/-- Python `round(x, d)`: scale by `10^d`, round half-to-even, unscale. -/
def roundTo (d : ℕ) (x : ℚ) : ℚ :=
  (roundHalfEven (x * (10 : ℚ) ^ d) : ℚ) / (10 : ℚ) ^ d

/-- Real-valued version of `roundHalfEven`, for the one metric
(`statistics.stdev`) that leaves the rationals. -/
noncomputable def roundHalfEvenR (x : ℝ) : ℤ :=
  if x - ⌊x⌋ < 1/2 then ⌊x⌋
  else if 1/2 < x - ⌊x⌋ then ⌊x⌋ + 1
  else if Even ⌊x⌋ then ⌊x⌋ else ⌊x⌋ + 1

/-- Real-valued version of `roundTo`. -/
noncomputable def roundToR (d : ℕ) (x : ℝ) : ℝ :=
  (roundHalfEvenR (x * (10 : ℝ) ^ d) : ℝ) / (10 : ℝ) ^ d

theorem roundHalfEven_nonneg {x : ℚ} (hx : 0 ≤ x) : 0 ≤ roundHalfEven x := by
  unfold roundHalfEven
  have hf : (0 : ℤ) ≤ ⌊x⌋ := Int.le_floor.mpr (by exact_mod_cast hx)
  split_ifs <;> omega

theorem roundHalfEven_le {x : ℚ} {n : ℤ} (hx : x ≤ n) : roundHalfEven x ≤ n := by
  unfold roundHalfEven
  have hf : ⌊x⌋ ≤ n := by
    have h := Int.floor_le_floor hx
    rwa [Int.floor_intCast] at h
  by_cases hfe : (⌊x⌋ : ℚ) = n
  · have hxe : x - ⌊x⌋ ≤ 0 := by
      have : x ≤ (⌊x⌋ : ℚ) := by rw [hfe]; exact_mod_cast hx
      linarith
    have h1 : x - (⌊x⌋ : ℚ) < 1/2 := by linarith
    simp only [h1, if_pos]
    exact hf
  · have hflt : ⌊x⌋ < n := lt_of_le_of_ne hf (fun h => hfe (by exact_mod_cast h))
    split_ifs <;> omega

theorem roundHalfEvenR_nonneg {x : ℝ} (hx : 0 ≤ x) : 0 ≤ roundHalfEvenR x := by
  unfold roundHalfEvenR
  have hf : (0 : ℤ) ≤ ⌊x⌋ := Int.le_floor.mpr (by exact_mod_cast hx)
  split_ifs <;> omega

theorem roundHalfEvenR_le {x : ℝ} {n : ℤ} (hx : x ≤ n) : roundHalfEvenR x ≤ n := by
  unfold roundHalfEvenR
  have hf : ⌊x⌋ ≤ n := by
    have h := Int.floor_le_floor hx
    rwa [Int.floor_intCast] at h
  by_cases hfe : (⌊x⌋ : ℝ) = n
  · have hxe : x - ⌊x⌋ ≤ 0 := by
      have : x ≤ (⌊x⌋ : ℝ) := by rw [hfe]; exact_mod_cast hx
      linarith
    have h1 : x - (⌊x⌋ : ℝ) < 1/2 := by linarith
    simp only [h1, if_pos]
    exact hf
  · have hflt : ⌊x⌋ < n := lt_of_le_of_ne hf (fun h => hfe (by exact_mod_cast h))
    split_ifs <;> omega

theorem roundTo_nonneg {d : ℕ} {x : ℚ} (hx : 0 ≤ x) : 0 ≤ roundTo d x := by
  unfold roundTo
  have h1 : (0 : ℤ) ≤ roundHalfEven (x * (10 : ℚ) ^ d) :=
    roundHalfEven_nonneg (by positivity)
  have h2 : (0 : ℚ) ≤ (roundHalfEven (x * (10 : ℚ) ^ d) : ℚ) := by exact_mod_cast h1
  positivity

theorem roundTo_le {d : ℕ} {x : ℚ} {n : ℤ} (hx : x ≤ n) : roundTo d x ≤ n := by
  unfold roundTo
  have h1 : roundHalfEven (x * (10 : ℚ) ^ d) ≤ n * (10 : ℤ) ^ d := by
    apply roundHalfEven_le
    push_cast
    have hp : (0 : ℚ) < (10 : ℚ) ^ d := by positivity
    exact mul_le_mul_of_nonneg_right hx (le_of_lt hp)
  have h2 : (roundHalfEven (x * (10 : ℚ) ^ d) : ℚ) ≤ (n : ℚ) * (10 : ℚ) ^ d := by
    exact_mod_cast h1
  have hp : (0 : ℚ) < (10 : ℚ) ^ d := by positivity
  rw [div_le_iff₀ hp] at *
  linarith

theorem roundToR_nonneg {d : ℕ} {x : ℝ} (hx : 0 ≤ x) : 0 ≤ roundToR d x := by
  unfold roundToR
  have h1 : (0 : ℤ) ≤ roundHalfEvenR (x * (10 : ℝ) ^ d) :=
    roundHalfEvenR_nonneg (by positivity)
  have h2 : (0 : ℝ) ≤ (roundHalfEvenR (x * (10 : ℝ) ^ d) : ℝ) := by exact_mod_cast h1
  positivity

theorem roundToR_le {d : ℕ} {x : ℝ} {n : ℤ} (hx : x ≤ n) : roundToR d x ≤ n := by
  unfold roundToR
  have h1 : roundHalfEvenR (x * (10 : ℝ) ^ d) ≤ n * (10 : ℤ) ^ d := by
    apply roundHalfEvenR_le
    push_cast
    have hp : (0 : ℝ) < (10 : ℝ) ^ d := by positivity
    exact mul_le_mul_of_nonneg_right hx (le_of_lt hp)
  have h2 : (roundHalfEvenR (x * (10 : ℝ) ^ d) : ℝ) ≤ (n : ℝ) * (10 : ℝ) ^ d := by
    exact_mod_cast h1
  have hp : (0 : ℝ) < (10 : ℝ) ^ d := by positivity
  rw [div_le_iff₀ hp] at *
  linarith

theorem roundHalfEven_intCast (n : ℤ) : roundHalfEven (n : ℚ) = n := by
  unfold roundHalfEven
  rw [Int.floor_intCast]
  norm_num

/-- Rounding an integer value is the identity (used to evaluate rounded
metrics at concrete inputs). -/
theorem roundTo_intCast (d : ℕ) (n : ℤ) : roundTo d (n : ℚ) = n := by
  unfold roundTo
  have hcast : ((n : ℚ) * (10 : ℚ) ^ d) = ((n * 10 ^ d : ℤ) : ℚ) := by push_cast; ring
  rw [hcast, roundHalfEven_intCast]
  have hp : ((10 : ℚ) ^ d) ≠ 0 := by positivity
  push_cast
  field_simp

/-! ## Tokenizer / segmenter (`_split_words`, `_split_sentences`,
`_count_syllables` in `text_analytics_service.py`) -/

/-- Python `str` whitespace for `\s` / `strip()` (ASCII). -/
def pyWs (c : Char) : Bool :=
  c = ' ' || c = '\t' || c = '\n' || c = '\x0d' || c = '\x0b' || c = '\x0c'

/-- A regex `\w` character (ASCII model of `[A-Za-z0-9_]`). -/
def isWordChar (c : Char) : Bool :=
  c.isAlphanum || c = '_'

/-- Sentence-terminal characters, the class `[.!?]`. -/
def isTerminal (c : Char) : Bool :=
  c = '.' || c = '!' || c = '?'

/-- Python `str.strip()`. -/
def pyStrip (l : List Char) : List Char :=
  ((l.dropWhile pyWs).reverse.dropWhile pyWs).reverse

/-- Auxiliary for `splitRuns`: single pass accumulating the current
fragment (reversed); the flag records whether the previously consumed
character was a separator, so a maximal separator run closes exactly
one fragment. -/
def splitRunsAux (p : Char → Bool) : List Char → List Char → Bool → List (List Char)
  | acc, [], _ => [acc.reverse]
  | acc, c :: cs, inSep =>
    if p c then
      if inSep then splitRunsAux p acc cs true
      else acc.reverse :: splitRunsAux p [] cs true
    else splitRunsAux p (c :: acc) cs false

/-- Python `re.split` on the character class `p` repeated (`[...]+`):
fragments between maximal separator runs, keeping empty fragments at
the boundaries (as `re.split` does). -/
def splitRuns (p : Char → Bool) (l : List Char) : List (List Char) :=
  splitRunsAux p [] l false

/-- `_split_words`: `re.findall(r'\b\w+\b', text.lower())`, i.e. the
maximal word-character runs of the lowercased text. -/
def splitWords (l : List Char) : List (List Char) :=
  ((l.map Char.toLower).splitOnP (fun c => !isWordChar c)).filter (fun w => w ≠ [])

/-- `_split_sentences`: split on runs of `.!?`, strip each fragment,
drop the empty ones. -/
def splitSentences (l : List Char) : List (List Char) :=
  ((splitRuns isTerminal l).map pyStrip).filter (fun s => s ≠ [])

/-- Vowels used by the syllable estimate. -/
def isVowel (c : Char) : Bool :=
  c = 'a' || c = 'e' || c = 'i' || c = 'o' || c = 'u' || c = 'y'

/-- Count vowel-group starts, tracking whether the previous character
was a vowel. -/
def syllableGroups : List Char → Bool → ℕ
  | [], _ => 0
  | c :: cs, prev =>
    (if isVowel c && !prev then 1 else 0) + syllableGroups cs (isVowel c)

/-- `_count_syllables`: vowel-group count, minus one for a final silent
`e` when more than one group was found, floored at 1. -/
def countSyllables (w : List Char) : ℕ :=
  let lw := w.map Char.toLower
  let n := syllableGroups lw false
  let n := if lw.getLast? = some 'e' && decide (1 < n) then n - 1 else n
  max 1 n

/-! ## `statistics.mean` / `statistics.variance` / sample stdev -/

/-- `statistics.mean` (callers guard against empty input). -/
def qmean (xs : List ℚ) : ℚ := xs.sum / xs.length

/-- `statistics.variance`: the sample variance `Σ (x-μ)² / (n-1)`
(callers guard `n ≥ 2`). -/
def qvariance (xs : List ℚ) : ℚ :=
  ((xs.map (fun x => (x - qmean xs) ^ 2)).sum) / (xs.length - 1)

theorem qvariance_nonneg (xs : List ℚ) (h2 : 2 ≤ xs.length) : 0 ≤ qvariance xs := by
  unfold qvariance
  apply div_nonneg
  · apply List.sum_nonneg
    intro x hx
    simp only [List.mem_map] at hx
    obtain ⟨y, _, rfl⟩ := hx
    positivity
  · have : (2 : ℚ) ≤ (xs.length : ℚ) := by exact_mod_cast h2
    linarith

end Ai2Human

namespace Ai2Human

/-! ## Analyzer word lists (`TextAnalyticsService.__init__`) -/

/-- `common_words`. -/
def commonWords : List (List Char) :=
  ["the", "be", "to", "of", "and", "a", "in", "that", "have", "i",
   "it", "for", "not", "on", "with", "he", "as", "you", "do", "at",
   "this", "but", "his", "by", "from", "they", "we", "say", "her", "she",
   "or", "an", "will", "my", "one", "all", "would", "there", "their",
   "what", "so", "up", "out", "if", "about", "who", "get", "which", "go"].map String.data

/-- `formal_indicators`. -/
def formalIndicators : List (List Char) :=
  ["utilize", "implement", "facilitate", "demonstrate", "comprehensive",
   "significant", "substantial", "considerable", "numerous", "various",
   "furthermore", "moreover", "additionally", "consequently", "therefore",
   "subsequently", "nevertheless", "however", "nonetheless", "accordingly"].map String.data

/-- `transition_words` of `_analyze_ai_indicators`. -/
def transitionWords : List (List Char) :=
  ["however", "furthermore", "moreover", "additionally", "consequently",
   "therefore", "subsequently", "nevertheless", "nonetheless", "accordingly"].map String.data

/-- The punctuation class `[;:,\-—()[\]{}"]` of `_analyze_complexity`
and `_analyze_burstiness`. -/
def isComplexityPunct (c : Char) : Bool :=
  c = ';' || c = ':' || c = ',' || c = '-' || c = '—' || c = '(' || c = ')' ||
  c = '[' || c = ']' || c = '\x7b' || c = '\x7d' || c = '\"'

/-! ## Level labels (threshold helpers of `TextAnalyticsService`) -/

/-- `_get_readability_level`. -/
def readabilityLevel (x : ℚ) : String :=
  if 90 ≤ x then "very_easy"
  else if 80 ≤ x then "easy"
  else if 70 ≤ x then "fairly_easy"
  else if 60 ≤ x then "standard"
  else if 50 ≤ x then "fairly_difficult"
  else if 30 ≤ x then "difficult"
  else "very_difficult"

/-- `_get_ai_likelihood_level`. -/
def aiLikelihoodLevel (x : ℚ) : String :=
  if 80 ≤ x then "very_high"
  else if 60 ≤ x then "high"
  else if 40 ≤ x then "moderate"
  else if 20 ≤ x then "low"
  else "very_low"

/-- `_get_burstiness_level` (on `ℝ` since the burstiness score involves
a real square root). -/
noncomputable def burstinessLevelR (x : ℝ) : String :=
  if 80 ≤ x then "very_high"
  else if 60 ≤ x then "high"
  else if 40 ≤ x then "moderate"
  else if 20 ≤ x then "low"
  else "very_low"

/-- `_get_humanness_level`. -/
noncomputable def humannessLevel (x : ℝ) : String :=
  if 85 ≤ x then "very_human"
  else if 70 ≤ x then "mostly_human"
  else if 55 ≤ x then "somewhat_human"
  else if 40 ≤ x then "mixed"
  else if 25 ≤ x then "somewhat_ai"
  else "likely_ai"

/-! ## `_calculate_readability` -/

/-- The `readability` result dict (field values rounded exactly as the
code rounds them before returning). -/
structure ReadabilityR where
  flesch : ℚ
  fkGrade : ℚ
  ari : ℚ
  colemanLiau : ℚ
  avgGrade : ℚ
  level : String
deriving DecidableEq, Repr

/-- `_calculate_readability`: `none` models the
`{'error': 'Insufficient text …'}` dict. -/
def calcReadability (text : List Char) : Option ReadabilityR :=
  let sents := splitSentences text
  let ws := splitWords text
  let syll : ℚ := ((ws.map countSyllables).sum : ℕ)
  if sents.length = 0 ∨ ws.length = 0 then none
  else
    let sc : ℚ := sents.length
    let wc : ℚ := ws.length
    let fe := max 0 (min 100 (206.835 - (1.015 * (wc / sc)) - (84.6 * (syll / wc))))
    let fk := max 0 ((0.39 * (wc / sc)) + (11.8 * (syll / wc)) - 15.59)
    let chars : ℚ := ((ws.map List.length).sum : ℕ)
    let ariV := max 0 ((4.71 * (chars / wc)) + (0.5 * (wc / sc)) - 21.43)
    let lV := (chars / wc) * 100
    let sV := (sc / wc) * 100
    let cli := max 0 ((0.0588 * lV) - (0.296 * sV) - 15.8)
    let avg := (fk + ariV + cli) / 3
    some ⟨roundTo 2 fe, roundTo 2 fk, roundTo 2 ariV, roundTo 2 cli, roundTo 2 avg,
          readabilityLevel fe⟩

/-! ## `_analyze_complexity` -/

/-- The `complexity` result dict (always produced, never an error). -/
structure ComplexityR where
  complexWordRatio : ℚ
  avgSentenceLength : ℚ
  sentenceLengthVariance : ℚ
  formalWordRatio : ℚ
  punctuationDensity : ℚ
  complexityScore : ℚ
deriving DecidableEq, Repr

/-- `_analyze_complexity`. -/
def calcComplexity (text : List Char) : ComplexityR :=
  let ws := splitWords text
  let sents := splitSentences text
  let cwr : ℚ := if ws ≠ [] then ((ws.filter (fun w => 6 < w.length)).length : ℚ) / ws.length else 0
  let lens : List ℚ := sents.map (fun s => ((splitWords s).length : ℚ))
  let avgLen : ℚ := if lens ≠ [] then qmean lens else 0
  let lenVar : ℚ := if 1 < lens.length then qvariance lens else 0
  let fwr : ℚ := if ws ≠ [] then ((ws.filter (fun w => w ∈ formalIndicators)).length : ℚ) / ws.length else 0
  let pd : ℚ := if ws ≠ [] then ((text.filter isComplexityPunct).length : ℚ) / ws.length else 0
  ⟨roundTo 3 cwr, roundTo 2 avgLen, roundTo 2 lenVar, roundTo 3 fwr, roundTo 3 pd,
   roundTo 2 ((cwr + fwr + pd) * 100)⟩

/-! ## `_analyze_ai_indicators` -/

/-- The `ai_indicators` result dict (always produced). -/
structure AiIndicatorsR where
  formalLanguageRatio : ℚ
  repetitionScore : ℚ
  sentenceUniformity : ℚ
  transitionWordRatio : ℚ
  aiScore : ℚ
  level : String
deriving DecidableEq, Repr

/-- `_analyze_ai_indicators`. -/
def calcAiIndicators (text : List Char) : AiIndicatorsR :=
  let ws := splitWords text
  let sents := splitSentences text
  let fr : ℚ := if ws ≠ [] then ((ws.filter (fun w => w ∈ formalIndicators)).length : ℚ) / ws.length else 0
  let cands := ws.filter (fun w => w ∉ commonWords && decide (3 < w.length))
  let keys := cands.dedup
  let repeated := (keys.filter (fun w => 2 < cands.count w)).length
  let rep : ℚ := if keys ≠ [] then (repeated : ℚ) / keys.length else 0
  let lens : List ℚ := sents.map (fun s => ((splitWords s).length : ℚ))
  let lenVar : ℚ := if 1 < lens.length then qvariance lens else 0
  let uni : ℚ := if 0 < lenVar then 1 / (1 + lenVar) else 1
  let tc : ℚ := ((ws.filter (fun w => w ∈ transitionWords)).length : ℚ)
  let tr : ℚ := if sents ≠ [] then tc / sents.length else 0
  let score := (fr * 0.3 + rep * 0.2 + uni * 0.3 + min tr 1 * 0.2) * 100
  ⟨roundTo 3 fr, roundTo 3 rep, roundTo 3 uni, roundTo 3 tr, roundTo 2 score,
   aiLikelihoodLevel score⟩

/-! ## `_analyze_burstiness` -/

/-- The `burstiness` result dict; `lenStd`, `coeffVar` and `score`
involve `statistics.stdev`, a real square root, hence live in `ℝ`. -/
structure BurstinessR where
  sentenceCount : ℕ
  meanLength : ℚ
  lengthVariance : ℚ
  lengthStd : ℝ
  coeffVar : ℝ
  complexityVariance : ℚ
  score : ℝ
  level : String

/-- `_analyze_burstiness`: `none` models the insufficient-sentences
error dict. -/
noncomputable def calcBurstiness (text : List Char) : Option BurstinessR :=
  let sents := splitSentences text
  let lens : List ℚ := sents.map (fun s => ((splitWords s).length : ℚ))
  if lens.length < 2 then none
  else
    let m := qmean lens
    let v := qvariance lens
    let std : ℝ := Real.sqrt (v : ℝ)
    let cv : ℝ := if 0 < m then std / (m : ℝ) else 0
    let cscores : List ℚ := sents.map (fun s =>
      let sws := splitWords s
      if sws ≠ [] then
        (((sws.filter (fun w => 6 < w.length)).length : ℚ) +
         ((s.filter isComplexityPunct).length : ℚ)) / sws.length
      else 0)
    let cvar : ℚ := if 1 < cscores.length then qvariance cscores else 0
    let score : ℝ := min 100 ((cv + (cvar : ℝ)) * 50)
    some ⟨sents.length, roundTo 2 m, roundTo 2 v, roundToR 2 std, roundToR 3 cv,
          roundTo 3 cvar, roundToR 2 score, burstinessLevelR score⟩

/-! ## `_calculate_overall_score` -/

/-- The `overall_score` result dict. -/
structure OverallR where
  score : ℝ
  level : String
  compReadability : ℝ
  compComplexity : ℝ
  compAntiAi : ℝ
  compBurstiness : ℝ

/-- `_calculate_overall_score` (non-exceptional path; the `except`
branch of the Python code is unreachable for well-typed section
results).  The `dict.get(…, 50)` defaults are taken exactly when the
corresponding section reported an error; `complexity` and
`ai_indicators` always carry their keys, so their defaults can never
fire. -/
noncomputable def calcOverall (readability : Option ReadabilityR) (complexity : ComplexityR)
    (ai : AiIndicatorsR) (burstiness : Option BurstinessR) : OverallR :=
  let r : ℝ := min 100 (max 0 (((readability.map (fun x => x.flesch)).getD 50 : ℚ) : ℝ))
  let c : ℝ := min 100 ((complexity.complexityScore : ℝ))
  let a : ℝ := 100 - ((ai.aiScore : ℝ))
  let b : ℝ := (burstiness.map (fun x => x.score)).getD 50
  let s : ℝ := r * 0.25 + c * 0.25 + a * 0.3 + b * 0.2
  ⟨roundToR 2 s, humannessLevel s, roundToR 2 r, roundToR 2 c, roundToR 2 a, roundToR 2 b⟩

/-- The overall humanness score of a text, as `analyze_text` assembles
it. -/
noncomputable def overallScoreOf (text : List Char) : OverallR :=
  calcOverall (calcReadability text) (calcComplexity text)
    (calcAiIndicators text) (calcBurstiness text)

end Ai2Human

namespace Ai2Human

/-! ## `difflib.SequenceMatcher` (used by `_calculate_similarity_metrics`)

All three similarity metrics construct `SequenceMatcher(None, a, b)`
and take `.ratio()`.  The algorithm is embedded generically:
* `isjunk` is `None` at every construction site, so the junk set
  (`bjunk`) is empty (`bJunkOf` below);
* `autojunk` is left at `True`: when `len(b) ≥ 200`, elements occurring
  more than `len(b)//100 + 1` times are "popular" and removed from the
  `b2j` index (`isPopular` below), though the extension loops of
  `find_longest_match` still match them;
* the `j2len` dynamic program of `find_longest_match` is expressed by
  the recursive run length `kRun`, and the two nested loops by a fold
  over the index ranges, updating on strict improvement exactly as the
  `k > bestsize` test does;
* `get_matching_blocks` is expressed by `matchingTotal`, the total size
  of all matching blocks, which is all `.ratio()` reads (the
  adjacent-block merge performed by `get_matching_blocks` preserves this
  total). -/

variable {α : Type} [DecidableEq α]

/-- `autojunk` popularity: `b` has at least 200 elements and the
element occurs more than `len(b)//100 + 1` times. -/
def isPopular (b : List α) (x : α) : Bool :=
  decide (200 ≤ b.length) && decide (b.length / 100 + 1 < b.count x)

/-- The junk set `bjunk`: empty, because `isjunk is None` at every
`SequenceMatcher` construction site in the repository. -/
def bJunkOf (_b : List α) : α → Bool := fun _ => false

/-- `bjunk` membership test at a `b`-index. -/
def bJunkAt (b : List α) (j : ℕ) : Bool :=
  match b[j]? with
  | some y => bJunkOf b y
  | none => false

/-- Plain element equality `a[i] == b[j]` (false out of range). -/
def eqAt (a b : List α) (i j : ℕ) : Bool :=
  match a[i]?, b[j]? with
  | some x, some y => decide (x = y)
  | _, _ => false

/-- `a[i] == b[j]` where additionally `j` is indexed by `b2j`: the
element is not popular-junk.  These are exactly the pairs the `j2len`
dynamic program of `find_longest_match` walks. -/
def matchOk (a b : List α) (i j : ℕ) : Bool :=
  match a[i]?, b[j]? with
  | some x, some y => decide (x = y) && !(isPopular b y)
  | _, _ => false

/-- Length of the matching run ending at `(i, j)`: the value
`j2len[j]` holds after row `i` of `find_longest_match`'s dynamic
program (rows start at `alo`, columns at `blo`). -/
def kRun (a b : List α) (alo blo i j : ℕ) : ℕ :=
  if h1 : i < alo ∨ j < blo ∨ matchOk a b i j = false then 0
  else if h2 : i = alo ∨ j = blo then 1
  else 1 + kRun a b alo blo (i - 1) (j - 1)
termination_by i
decreasing_by
  simp only [not_or] at h1 h2
  omega

/-- A candidate best block `(besti, bestj, bestsize)`. -/
structure Best where
  bi : ℕ
  bj : ℕ
  size : ℕ
deriving DecidableEq, Repr

/-- The double loop of `find_longest_match` (before the extension
loops): scan rows `alo ≤ i < ahi` and columns `blo ≤ j < bhi`,
replacing the best block whenever `k > bestsize`. -/
def phase1 (a b : List α) (alo ahi blo bhi : ℕ) : Best :=
  (List.range' alo (ahi - alo)).foldl (fun st i =>
    (List.range' blo (bhi - blo)).foldl (fun st j =>
      let k := kRun a b alo blo i j
      if st.size < k then ⟨i + 1 - k, j + 1 - k, k⟩ else st) st)
    ⟨alo, blo, 0⟩

/-- A `while besti > alo and bestj > blo and cond(besti-1, bestj-1)`
extension loop. -/
def extendLower (cond : ℕ → ℕ → Bool) (alo blo : ℕ) (st : Best) : Best :=
  if h : alo < st.bi ∧ blo < st.bj ∧ cond (st.bi - 1) (st.bj - 1) then
    extendLower cond alo blo ⟨st.bi - 1, st.bj - 1, st.size + 1⟩
  else st
termination_by st.bi
decreasing_by
  omega

/-- A `while besti+bestsize < ahi and bestj+bestsize < bhi and
cond(besti+bestsize, bestj+bestsize)` extension loop. -/
def extendUpper (cond : ℕ → ℕ → Bool) (ahi bhi : ℕ) (st : Best) : Best :=
  if h : st.bi + st.size < ahi ∧ st.bj + st.size < bhi ∧
      cond (st.bi + st.size) (st.bj + st.size) then
    extendUpper cond ahi bhi ⟨st.bi, st.bj, st.size + 1⟩
  else st
termination_by ahi - (st.bi + st.size)
decreasing_by
  omega

/-- `find_longest_match`: the dynamic program followed by the four
extension loops (non-junk then junk, in both directions). -/
def findLongestMatch (a b : List α) (alo ahi blo bhi : ℕ) : Best :=
  let st := phase1 a b alo ahi blo bhi
  let st := extendLower (fun i j => !(bJunkAt b j) && eqAt a b i j) alo blo st
  let st := extendUpper (fun i j => !(bJunkAt b j) && eqAt a b i j) ahi bhi st
  let st := extendLower (fun i j => (bJunkAt b j) && eqAt a b i j) alo blo st
  let st := extendUpper (fun i j => (bJunkAt b j) && eqAt a b i j) ahi bhi st
  st

/-- Total size of all matching blocks of `get_matching_blocks`
(recursing on both sides of each returned block).  The first argument
is recursion fuel; any fuel at least the size of the `a`-range is
enough, and `matcherSimilarity` passes `len(a) + len(b)`. -/
def matchingTotal (a b : List α) : ℕ → ℕ → ℕ → ℕ → ℕ → ℕ
  | 0, _, _, _, _ => 0
  | fuel + 1, alo, ahi, blo, bhi =>
    if alo < ahi ∧ blo < bhi then
      let st := findLongestMatch a b alo ahi blo bhi
      if st.size = 0 then 0
      else
        matchingTotal a b fuel alo st.bi blo st.bj + st.size +
          matchingTotal a b fuel (st.bi + st.size) ahi (st.bj + st.size) bhi
    else 0

/-- `SequenceMatcher(None, a, b).ratio()`:
`2 * matches / (len(a) + len(b))`, and `1.0` when both are empty. -/
def matcherSimilarity (a b : List α) : ℚ :=
  if a.length + b.length = 0 then 1
  else 2 * (matchingTotal a b (a.length + b.length) 0 a.length 0 b.length : ℚ) /
    (a.length + b.length)

end Ai2Human

namespace Ai2Human

/-! ### `matcherSimilarity a a = 1`

`find_longest_match` on two identical ranges of the same sequence
returns the whole range: the dynamic program's best block is always on
the diagonal (a strictly better off-diagonal run would force an equal
diagonal run that the scan met earlier), and the extension loops then
stretch a diagonal block to the full range since every element equals
itself. -/

variable {α : Type} [DecidableEq α]

omit [DecidableEq α] in
theorem bJunkAt_false (b : List α) (j : ℕ) : bJunkAt b j = false := by
  unfold bJunkAt bJunkOf
  cases b[j]? <;> rfl

theorem eqAt_diag (a : List α) {i : ℕ} (h : i < a.length) : eqAt a a i i = true := by
  unfold eqAt
  rw [List.getElem?_eq_getElem h]
  simp

theorem matchOk_iff {a b : List α} {i j : ℕ} :
    matchOk a b i j = true ↔
      ∃ x, a[i]? = some x ∧ b[j]? = some x ∧ isPopular b x = false := by
  unfold matchOk
  cases hai : a[i]? with
  | none => simp
  | some x =>
    cases haj : b[j]? with
    | none => simp
    | some y =>
      simp only [Bool.and_eq_true, decide_eq_true_eq, Bool.not_eq_true',
        Option.some.injEq]
      constructor
      · rintro ⟨rfl, hp⟩
        exact ⟨x, rfl, rfl, hp⟩
      · rintro ⟨z, hz1, hz2, hp⟩
        cases hz1
        cases hz2
        exact ⟨rfl, hp⟩

theorem matchOk_diagL {a : List α} {i j : ℕ} (h : matchOk a a i j = true) :
    matchOk a a j j = true := by
  obtain ⟨x, _, hj, hp⟩ := matchOk_iff.mp h
  exact matchOk_iff.mpr ⟨x, hj, hj, hp⟩

theorem matchOk_diagR {a : List α} {i j : ℕ} (h : matchOk a a i j = true) :
    matchOk a a i i = true := by
  obtain ⟨x, hi, _, hp⟩ := matchOk_iff.mp h
  exact matchOk_iff.mpr ⟨x, hi, hi, hp⟩

theorem kRun_le_span (a b : List α) (alo blo : ℕ) :
    ∀ i j, kRun a b alo blo i j ≤ i + 1 - alo := by
  intro i
  induction i using Nat.strong_induction_on with
  | _ i ih =>
    intro j
    rw [kRun]
    split_ifs with h1 h2
    · omega
    · simp only [not_or] at h1
      omega
    · simp only [not_or] at h1 h2
      have := ih (i - 1) (by omega) (j - 1)
      omega

theorem one_le_kRun_diag {a : List α} {alo j : ℕ} (hj : alo ≤ j)
    (hm : matchOk a a j j = true) : 1 ≤ kRun a a alo alo j j := by
  rw [kRun]
  have hg1 : ¬(j < alo ∨ j < alo ∨ matchOk a a j j = false) := by
    push_neg
    exact ⟨by omega, by omega, by simp [hm]⟩
  rw [dif_neg hg1]
  split_ifs with h2
  · omega
  · omega

theorem kRun_le_diagL (a : List α) (alo : ℕ) :
    ∀ i j, kRun a a alo alo i j ≤ kRun a a alo alo j j := by
  intro i
  induction i using Nat.strong_induction_on with
  | _ i ih =>
    intro j
    conv_lhs => rw [kRun]
    split_ifs with h1 h2
    · omega
    · simp only [not_or, Bool.not_eq_false] at h1
      exact one_le_kRun_diag (Nat.le_of_not_lt h1.2.1) (matchOk_diagL h1.2.2)
    · simp only [not_or, Bool.not_eq_false] at h1 h2
      have hm : matchOk a a j j = true := matchOk_diagL h1.2.2
      have hg1 : ¬(j < alo ∨ j < alo ∨ matchOk a a j j = false) := by
        simp [hm]
        omega
      have hg2 : ¬(j = alo ∨ j = alo) := by
        simp only [or_self]
        omega
      conv_rhs => rw [kRun]
      rw [dif_neg hg1, dif_neg hg2]
      have := ih (i - 1) (by omega) (j - 1)
      omega

theorem kRun_le_diagR (a : List α) (alo : ℕ) :
    ∀ i j, kRun a a alo alo i j ≤ kRun a a alo alo i i := by
  intro i
  induction i using Nat.strong_induction_on with
  | _ i ih =>
    intro j
    conv_lhs => rw [kRun]
    split_ifs with h1 h2
    · omega
    · simp only [not_or, Bool.not_eq_false] at h1
      exact one_le_kRun_diag (Nat.le_of_not_lt h1.1) (matchOk_diagR h1.2.2)
    · simp only [not_or, Bool.not_eq_false] at h1 h2
      have hm : matchOk a a i i = true := matchOk_diagR h1.2.2
      have hg1 : ¬(i < alo ∨ i < alo ∨ matchOk a a i i = false) := by
        simp [hm]
        omega
      have hg2 : ¬(i = alo ∨ i = alo) := by
        simp only [or_self]
        omega
      conv_rhs => rw [kRun]
      rw [dif_neg hg1, dif_neg hg2]
      have := ih (i - 1) (by omega) (j - 1)
      omega

/-- Invariant of the scan of `phase1` on identical ranges: the best
block is diagonal, in bounds, and at least as large as every fully
scanned diagonal run. -/
def scanInv (a : List α) (alo ahi : ℕ) (st : Best) (bound : ℕ) : Prop :=
  st.bi = st.bj ∧ alo ≤ st.bi ∧ st.bi + st.size ≤ ahi ∧
  ∀ d, alo ≤ d → d < bound → kRun a a alo alo d d ≤ st.size

/-- Invariant inside row `i` of the scan, `jb` columns processed. -/
def rowInv (a : List α) (alo ahi i : ℕ) (st : Best) (jb : ℕ) : Prop :=
  st.bi = st.bj ∧ alo ≤ st.bi ∧ st.bi + st.size ≤ ahi ∧
  (∀ d, alo ≤ d → d < i → kRun a a alo alo d d ≤ st.size) ∧
  (i < jb → kRun a a alo alo i i ≤ st.size)

/-- Generic invariant-propagation along `List.foldl` over `range'`. -/
theorem foldl_range'_inv {β : Type} (f : β → ℕ → β) (P : β → ℕ → Prop) :
    ∀ (cnt start : ℕ) (st : β), P st start →
      (∀ st j, start ≤ j → j < start + cnt → P st j → P (f st j) (j + 1)) →
      P ((List.range' start cnt).foldl f st) (start + cnt) := by
  intro cnt
  induction cnt with
  | zero =>
    intro start st h _
    simpa using h
  | succ n ih =>
    intro start st h hstep
    rw [List.range'_succ]
    simp only [List.foldl_cons]
    have h1 : P (f st start) (start + 1) := hstep st start le_rfl (by omega) h
    have h2 := ih (start + 1) (f st start) h1
      (fun st j hj1 hj2 hp => hstep st j (by omega) (by omega) hp)
    have he : start + 1 + n = start + (n + 1) := by omega
    rwa [he] at h2

theorem rowInv_step (a : List α) (alo ahi i : ℕ) (hi1 : alo ≤ i) (hi2 : i < ahi)
    (st : Best) (j : ℕ) (hj1 : alo ≤ j) (hj2 : j < ahi)
    (h : rowInv a alo ahi i st j) :
    rowInv a alo ahi i
      (if st.size < kRun a a alo alo i j then
        ⟨i + 1 - kRun a a alo alo i j, j + 1 - kRun a a alo alo i j,
          kRun a a alo alo i j⟩
       else st) (j + 1) := by
  obtain ⟨hdiag, hblo, hbhi, hprev, hrow⟩ := h
  by_cases hup : st.size < kRun a a alo alo i j
  · have hij : j = i := by
      rcases lt_trichotomy j i with hlt | heq | hgt
      · have h1 := kRun_le_diagL a alo i j
        have h2 := hprev j hj1 hlt
        omega
      · exact heq
      · have h1 := kRun_le_diagR a alo i j
        have h2 := hrow hgt
        omega
    subst hij
    rw [if_pos hup]
    have hspan := kRun_le_span a a alo alo j j
    unfold rowInv
    dsimp only
    refine ⟨rfl, by omega, by omega, ?_, ?_⟩
    · intro d hd1 hd2
      have := hprev d hd1 hd2
      omega
    · intro _
      omega
  · rw [if_neg hup]
    refine ⟨hdiag, hblo, hbhi, hprev, ?_⟩
    intro hlt
    rcases lt_trichotomy i j with h1 | h1 | h1
    · exact hrow h1
    · subst h1
      omega
    · omega

theorem phase1_self (a : List α) (alo ahi : ℕ) (hle : alo ≤ ahi) :
    scanInv a alo ahi (phase1 a a alo ahi alo ahi) ahi := by
  unfold phase1
  have hmain := foldl_range'_inv
    (fun st i =>
      (List.range' alo (ahi - alo)).foldl (fun st j =>
        let k := kRun a a alo alo i j
        if st.size < k then ⟨i + 1 - k, j + 1 - k, k⟩ else st) st)
    (scanInv a alo ahi) (ahi - alo) alo ⟨alo, alo, 0⟩
    ⟨rfl, le_rfl, by simpa using hle, fun d hd1 hd2 => absurd hd1 (by omega)⟩
    (fun st i hi1 hi2 hp => by
      have hi2' : i < ahi := by omega
      have hrow0 : rowInv a alo ahi i st alo :=
        ⟨hp.1, hp.2.1, hp.2.2.1, fun d hd1 hd2 => hp.2.2.2 d hd1 (by omega),
         fun hlt => absurd hlt (by omega)⟩
      have hrow := foldl_range'_inv
        (fun st j =>
          let k := kRun a a alo alo i j
          if st.size < k then ⟨i + 1 - k, j + 1 - k, k⟩ else st)
        (rowInv a alo ahi i) (ahi - alo) alo st hrow0
        (fun st j hj1 hj2 hp' => by
          have := rowInv_step a alo ahi i hi1 hi2' st j hj1 (by omega) hp'
          exact this)
      have hend : alo + (ahi - alo) = ahi := by omega
      rw [hend] at hrow
      exact ⟨hrow.1, hrow.2.1, hrow.2.2.1, fun d hd1 hd2 => by
        rcases Nat.lt_or_ge d i with hdi | hdi
        · exact hrow.2.2.2.1 d hd1 hdi
        · have hdi' : d = i := by omega
          subst hdi'
          exact hrow.2.2.2.2 hi2'⟩)
  have hend : alo + (ahi - alo) = ahi := by omega
  rwa [hend] at hmain

theorem extendLower_self (a : List α) (alo : ℕ) :
    ∀ bi size, alo ≤ bi → bi ≤ a.length →
      extendLower (fun i j => !(bJunkAt a j) && eqAt a a i j) alo alo ⟨bi, bi, size⟩ =
        ⟨alo, alo, size + (bi - alo)⟩ := by
  intro bi
  induction bi using Nat.strong_induction_on with
  | _ bi ih =>
    intro size h1 h2
    rw [extendLower]
    by_cases hgt : alo < bi
    · have hidx : bi - 1 < a.length := by omega
      have hcond : (!(bJunkAt a (bi - 1)) && eqAt a a (bi - 1) (bi - 1)) = true := by
        rw [bJunkAt_false, eqAt_diag a hidx]
        rfl
      rw [dif_pos ⟨hgt, hgt, hcond⟩]
      have := ih (bi - 1) (by omega) (size + 1) (by omega) (by omega)
      simp only at this ⊢
      rw [this]
      have : size + 1 + (bi - 1 - alo) = size + (bi - alo) := by omega
      rw [this]
    · rw [dif_neg (fun hc => hgt hc.1)]
      have hba : bi = alo := by omega
      subst hba
      simp

theorem extendUpper_self (a : List α) (ahi : ℕ) (hlen : ahi ≤ a.length) :
    ∀ n bi size, ahi - (bi + size) = n → bi + size ≤ ahi →
      extendUpper (fun i j => !(bJunkAt a j) && eqAt a a i j) ahi ahi ⟨bi, bi, size⟩ =
        ⟨bi, bi, ahi - bi⟩ := by
  intro n
  induction n using Nat.strong_induction_on with
  | _ n ih =>
    intro bi size hn hle
    rw [extendUpper]
    by_cases hlt : bi + size < ahi
    · have hidx : bi + size < a.length := by omega
      have hcond : (!(bJunkAt a (bi + size)) && eqAt a a (bi + size) (bi + size)) = true := by
        rw [bJunkAt_false, eqAt_diag a hidx]
        rfl
      rw [dif_pos ⟨hlt, hlt, hcond⟩]
      have := ih (ahi - (bi + (size + 1))) (by omega) bi (size + 1) rfl (by omega)
      simp only at this ⊢
      rw [this]
    · rw [dif_neg (fun hc => hlt hc.1)]
      have : size = ahi - bi := by omega
      rw [this]

theorem extendLower_junk (a : List α) (alo blo : ℕ) (st : Best) :
    extendLower (fun i j => (bJunkAt a j) && eqAt a a i j) alo blo st = st := by
  rw [extendLower]
  rw [dif_neg]
  intro hc
  have := hc.2.2
  rw [bJunkAt_false] at this
  simp at this

theorem extendUpper_junk (a : List α) (ahi bhi : ℕ) (st : Best) :
    extendUpper (fun i j => (bJunkAt a j) && eqAt a a i j) ahi bhi st = st := by
  rw [extendUpper]
  rw [dif_neg]
  intro hc
  have := hc.2.2
  rw [bJunkAt_false] at this
  simp at this

theorem findLongestMatch_self (a : List α) (alo ahi : ℕ) (h1 : alo ≤ ahi)
    (h2 : ahi ≤ a.length) :
    findLongestMatch a a alo ahi alo ahi = ⟨alo, alo, ahi - alo⟩ := by
  have hp := phase1_self a alo ahi h1
  unfold findLongestMatch
  rcases hst : phase1 a a alo ahi alo ahi with ⟨bi, bj, size⟩
  rw [hst] at hp
  obtain ⟨hdiag, hblo, hbhi, -⟩ := hp
  simp only at hdiag hblo hbhi
  subst hdiag
  simp only
  rw [extendLower_self a alo bi size hblo (by omega)]
  rw [extendUpper_self a ahi h2 (ahi - (alo + (size + (bi - alo)))) alo
    (size + (bi - alo)) rfl (by omega)]
  rw [extendLower_junk, extendUpper_junk]

theorem matchingTotal_zero (a b : List α) (fuel alo ahi blo bhi : ℕ)
    (h : ¬(alo < ahi ∧ blo < bhi)) :
    matchingTotal a b fuel alo ahi blo bhi = 0 := by
  cases fuel with
  | zero => rfl
  | succ n => simp only [matchingTotal, if_neg h]

theorem matchingTotal_self (a : List α) (fuel : ℕ) :
    matchingTotal a a (fuel + 1) 0 a.length 0 a.length = a.length := by
  simp only [matchingTotal]
  by_cases h : 0 < a.length
  · rw [if_pos ⟨h, h⟩]
    rw [findLongestMatch_self a 0 a.length (by omega) le_rfl]
    simp only [Nat.sub_zero]
    rw [if_neg (by omega)]
    rw [matchingTotal_zero a a fuel 0 0 0 0 (by omega)]
    rw [matchingTotal_zero a a fuel (0 + a.length) a.length (0 + a.length) a.length
      (by omega)]
    omega
  · rw [if_neg (fun hc => h hc.1)]
    omega

/-- On any list (here: any text, word list or sentence list),
`SequenceMatcher(None, x, x).ratio()` is exactly 1. -/
theorem matcherSimilarity_self (a : List α) : matcherSimilarity a a = 1 := by
  unfold matcherSimilarity
  by_cases h : a.length + a.length = 0
  · rw [if_pos h]
  · rw [if_neg h]
    have hn : 0 < a.length := by omega
    have hfuel : a.length + a.length = (a.length + a.length - 1) + 1 := by omega
    rw [hfuel, matchingTotal_self]
    have hq : ((a.length : ℚ) + a.length) ≠ 0 := by
      have : (0 : ℚ) < a.length := by exact_mod_cast hn
      linarith
    field_simp
    ring

end Ai2Human

namespace Ai2Human

/-! ## Text comparison service (`text_comparison_service.py`) -/

/-- The `similarity_metrics` dict of `_calculate_similarity_metrics`. -/
structure SimilarityR where
  charSim : ℚ
  wordSim : ℚ
  sentSim : ℚ
  jaccard : ℚ
  overall : ℚ
deriving DecidableEq, Repr

/-- `_calculate_similarity_metrics`: three `SequenceMatcher` ratios
(characters, word sequences, sentence sequences) plus Jaccard
similarity of the word sets.  The word/sentence extraction is the same
regex split the analyzer uses. -/
def calcSimilarityMetrics (original humanized : List Char) : SimilarityR :=
  let cs := matcherSimilarity original humanized
  let ow := splitWords original
  let hw := splitWords humanized
  let ws := matcherSimilarity ow hw
  let os := splitSentences original
  let hs := splitSentences humanized
  let ss := matcherSimilarity os hs
  let oset := ow.dedup
  let hset := hw.dedup
  let inter := (oset.filter (fun w => w ∈ hset)).length
  let uni := (oset ++ hset.filter (fun w => w ∉ oset)).length
  let jac : ℚ := if 0 < uni then (inter : ℚ) / uni else 0
  ⟨roundTo 3 cs, roundTo 3 ws, roundTo 3 ss, roundTo 3 jac,
   roundTo 3 ((cs + ws + ss + jac) / 4)⟩

/-- Words added by the rewrite: `humanized_set - original_set` of
`_analyze_word_changes` (count of distinct words). -/
def addedCount (original humanized : List Char) : ℕ :=
  ((splitWords humanized).dedup.filter (fun w => w ∉ splitWords original)).length

/-- Words removed by the rewrite: `original_set - humanized_set`. -/
def removedCount (original humanized : List Char) : ℕ :=
  ((splitWords original).dedup.filter (fun w => w ∉ splitWords humanized)).length

/-- `sentence_count_change` of `_analyze_sentence_changes`. -/
def sentCountChange (original humanized : List Char) : ℤ :=
  ((splitSentences humanized).length : ℤ) - ((splitSentences original).length : ℤ)

/-- The punctuation class `[.!?;:,\-—()[\]{}"]` of
`_analyze_structural_changes`. -/
def isStructPunct (c : Char) : Bool :=
  c = '.' || c = '!' || c = '?' || isComplexityPunct c

/-- Number of punctuation marks whose counts differ between the two
texts (`len(punct_changes)` in `_generate_change_summary`). -/
def punctChangedCount (original humanized : List Char) : ℕ :=
  let op := original.filter isStructPunct
  let hp := humanized.filter isStructPunct
  ((op ++ hp).dedup.filter (fun p => op.count p ≠ hp.count p)).length

/-- `preservation_score` of `_generate_change_summary`:
`100 − (added+removed word count + |sentence count change| +
changed punctuation count)`, rounded to 2 decimals (not clamped). -/
def preservationScore (original humanized : List Char) : ℚ :=
  roundTo 2 (100 -
    (((addedCount original humanized + removedCount original humanized : ℕ) : ℚ) +
      ((sentCountChange original humanized).natAbs : ℚ) +
      (punctChangedCount original humanized : ℚ)))

/-- The sentence count of `_get_text_stats`:
`len(re.split(r'[.!?]+', text)) - 1`. -/
def statsSentenceCount (text : List Char) : ℕ :=
  (splitRuns isTerminal text).length - 1

/-! ## Normalization pass (`humanize_text` step 11 in
`routes/humanizer.py`) -/

/-- Auxiliary for `collapseRuns`: the flag records whether the
previously consumed character belonged to a `p`-run, so a maximal run
emits exactly one replacement character. -/
def collapseRunsAux (p : Char → Bool) (r : Char) : List Char → Bool → List Char
  | [], _ => []
  | c :: cs, inRun =>
    if p c then
      if inRun then collapseRunsAux p r cs true
      else r :: collapseRunsAux p r cs true
    else c :: collapseRunsAux p r cs false

/-- `re.sub` of a repeated character class by a single replacement
character: each maximal run of `p`-characters becomes one `r`. -/
def collapseRuns (p : Char → Bool) (r : Char) (l : List Char) : List Char :=
  collapseRunsAux p r l false

/-- `re.sub(r'\s+', ' ', text)`. -/
def collapseWs (l : List Char) : List Char := collapseRuns pyWs ' ' l

/-- `re.sub(r'\.+', '.', text)` — note: periods only, `!` and `?` runs
are untouched. -/
def collapseDots (l : List Char) : List Char := collapseRuns (fun c => c = '.') '.' l

/-- Auxiliary for `dedupCommas`: after meeting a comma, buffer the
following whitespace (reversed) until the next character decides
whether the pattern `,\s*,` matched.  A match emits one comma and
resumes scanning after the second comma; a non-match flushes the
buffered span verbatim. -/
def dedupCommasAux : List Char → Option (List Char) → List Char
  | [], none => []
  | [], some wsAcc => ',' :: wsAcc.reverse
  | c :: cs, none =>
    if c = ',' then dedupCommasAux cs (some [])
    else c :: dedupCommasAux cs none
  | c :: cs, some wsAcc =>
    if c = ',' then ',' :: dedupCommasAux cs none
    else if pyWs c then dedupCommasAux cs (some (c :: wsAcc))
    else ',' :: (wsAcc.reverse ++ c :: dedupCommasAux cs none)

/-- `re.sub(r',\s*,', ',', text)`: each non-overlapping
`comma, whitespace, comma` span becomes a single comma; scanning
resumes after the second comma, so `,,,` leaves `,,`. -/
def dedupCommas (l : List Char) : List Char :=
  dedupCommasAux l none

/-- State of the `emDashFix` scan: scanning normally, buffering a
whitespace run that may precede an em-dash, or skipping the greedy
whitespace that follows a replaced dash. -/
inductive EdState where
  | normal : EdState
  | buffer : List Char → EdState
  | skip : EdState

/-- Auxiliary for `emDashFix`: a leftmost `\s*—\s*` match starts at the
whitespace run (possibly empty) before an em-dash (state `buffer`),
and after replacing it by `' — '` the trailing whitespace is consumed
greedily (state `skip`).  A whitespace run not followed by a dash is
flushed verbatim. -/
def emDashFixAux : List Char → EdState → List Char
  | [], .normal => []
  | [], .buffer wsAcc => wsAcc.reverse
  | [], .skip => []
  | c :: cs, .normal =>
    if c = '—' then ' ' :: '—' :: ' ' :: emDashFixAux cs .skip
    else if pyWs c then emDashFixAux cs (.buffer [c])
    else c :: emDashFixAux cs .normal
  | c :: cs, .buffer wsAcc =>
    if c = '—' then ' ' :: '—' :: ' ' :: emDashFixAux cs .skip
    else if pyWs c then emDashFixAux cs (.buffer (c :: wsAcc))
    else wsAcc.reverse ++ c :: emDashFixAux cs .normal
  | c :: cs, .skip =>
    if pyWs c then emDashFixAux cs .skip
    else if c = '—' then ' ' :: '—' :: ' ' :: emDashFixAux cs .skip
    else c :: emDashFixAux cs .normal

/-- `re.sub(r'\s*—\s*', ' — ', text)`. -/
def emDashFix (l : List Char) : List Char :=
  emDashFixAux l .normal

/-- Step 11 of `humanize_text`: the deterministic clean-up pass
(whitespace collapse, period collapse, duplicate-comma removal,
em-dash respacing, final strip). -/
def cleanupFormatting (l : List Char) : List Char :=
  pyStrip (emDashFix (dedupCommas (collapseDots (collapseWs l))))

/-! ## Mode targets, intensity, achieved-score simulation
(`routes/humanizer.py` and `_process_single_text` of
`batch_processing_service.py`) -/

/-- A target profile `{ai_generated, human_written}`. -/
structure Targets where
  aiGenerated : ℚ
  humanWritten : ℚ
deriving DecidableEq, Repr

/-- `get_target_percentages`: the dict lookup defaults to the
`balanced` profile for unknown modes. -/
def getTargetPercentages (mode : String) : Targets :=
  if mode = "fast" then ⟨75, 25⟩
  else if mode = "balanced" then ⟨50, 50⟩
  else if mode = "aggressive" then ⟨0, 100⟩
  else ⟨50, 50⟩

/-- `calculate_humanization_intensity`: defaults to `0.7` for unknown
modes. -/
def calcIntensity (mode : String) : ℚ :=
  if mode = "fast" then 0.4
  else if mode = "balanced" then 0.7
  else if mode = "aggressive" then 1.0
  else 0.7

/-- The achieved-score simulation, identical in the `/api/humanize`
route and in `_process_single_text`: perturb the targets by `±v`
(`v = random.uniform(-3, 3)`), clamp each side to `[0, 100]`, then
renormalize the pair to sum to 100 unless the total is 0. -/
def simulateAchieved (t : Targets) (v : ℚ) : ℚ × ℚ :=
  let ai := max 0 (min 100 (t.aiGenerated + v))
  let human := max 0 (min 100 (t.humanWritten - v))
  let total := ai + human
  if 0 < total then (ai / total * 100, human / total * 100)
  else (ai, human)

/-- The `/api/humanize` route validation: only missing/blank text is
rejected; the mode string is never checked. -/
def humanizeRouteError (text : List Char) (_mode : String) : Option String :=
  if pyStrip text = [] then some "Empty text provided" else none

/-- The `/api/batch` route validation in `analytics.py`, applied to the
already-lowercased mode string (the route reads
`data.get(..., ...).lower()` before validating): an empty list is
rejected, then any mode outside fast/balanced/aggressive is rejected
with a 400 input-validation error before the batch service is
invoked. -/
def batchRouteError (texts : List (List Char)) (mode : String) : Option String :=
  if texts = [] then some "Empty text list provided"
  else if mode ∉ (["fast", "balanced", "aggressive"] : List String) then
    some "Invalid mode. Must be fast, balanced, or aggressive"
  else none

/-! ## Batch processing service (`batch_processing_service.py`) -/

/-- A job record of `active_batches`. -/
structure Job where
  total : ℕ
  completed : ℕ
  failed : ℕ
  startTime : ℚ
  status : String
deriving DecidableEq, Repr

/-- The validation at the top of `process_batch`: empty list and >50
texts are rejected (the mode is not validated). -/
def batchValidationError (texts : List (List Char)) : Option String :=
  if texts = [] then some "No texts provided for batch processing"
  else if 50 < texts.length then some "Batch size too large. Maximum 50 texts allowed."
  else none

/-- A per-item result, reduced to the fields the claims are about:
its original index tag and its success flag. -/
structure ItemResult where
  index : ℕ
  success : Bool
deriving DecidableEq, Repr

/-- `_process_texts_parallel`: every text is submitted with its index;
results arrive in an arbitrary completion order (`completionOrder`,
a permutation of the indices), each updating the job's
`completed`/`failed` counter; the collected list is finally sorted by
original index.  The per-item processing itself is abstracted by
`outcome`. -/
def processTextsParallel (outcome : ℕ → Bool) (completionOrder : List ℕ)
    (job : Job) : List ItemResult × Job :=
  let collected := completionOrder.map (fun i => ItemResult.mk i (outcome i))
  let job := completionOrder.foldl (fun j i =>
    if outcome i then {j with completed := j.completed + 1}
    else {j with failed := j.failed + 1}) job
  (collected.mergeSort (fun x y => decide (x.index ≤ y.index)), job)

/-- `process_batch`: validate, create the job record, fan out, mark the
job `completed`, return the reassembled results.  Validation failures
return before any job record is created. -/
def processBatch (jobs : List (String × Job)) (texts : List (List Char)) (_mode : String)
    (batchId : String) (outcome : ℕ → Bool) (completionOrder : List ℕ) (now : ℚ) :
    List (String × Job) × Except String (List ItemResult) :=
  match batchValidationError texts with
  | some e => (jobs, Except.error e)
  | none =>
    let job0 : Job := ⟨texts.length, 0, 0, now, "processing"⟩
    let pr := processTextsParallel outcome completionOrder job0
    let job2 := {pr.2 with status := "completed"}
    ((batchId, job2) :: jobs, Except.ok pr.1)

/-- The `/api/batch` endpoint as registered in `analytics.py`:
route-level validation first, then the batch service.  A route
validation failure returns the error directly with the job table
untouched. -/
def processBatchRoute (jobs : List (String × Job)) (texts : List (List Char)) (mode : String)
    (batchId : String) (outcome : ℕ → Bool) (completionOrder : List ℕ) (now : ℚ) :
    List (String × Job) × Except String (List ItemResult) :=
  match batchRouteError texts mode with
  | some e => (jobs, Except.error e)
  | none => processBatch jobs texts mode batchId outcome completionOrder now

/-- The `progress_percentage` computed by `get_batch_status`. -/
def progressPercentage (j : Job) : ℚ :=
  if 0 < j.total then roundTo 2 (((j.completed : ℚ) / (j.total : ℚ)) * 100) else 0

/-- `cleanup_old_batches`: collect the ids of records strictly older
than `max_age_hours * 3600` seconds (age measured from `start_time`),
then delete them. -/
def cleanupOldBatches (jobs : List (String × Job)) (maxAgeHours : ℚ) (now : ℚ) :
    List (String × Job) :=
  let cutoff := maxAgeHours * 3600
  let toRemove := (jobs.filter (fun e => decide (cutoff < now - e.2.startTime))).map Prod.fst
  jobs.filter (fun e => decide (e.1 ∉ toRemove))

end Ai2Human

namespace Ai2Human

/-! ## Claim C2: achieved scores sum to 100 -/

theorem simulateAchieved_sum (t : Targets) (v : ℚ)
    (hpos : 0 < max 0 (min 100 (t.aiGenerated + v)) + max 0 (min 100 (t.humanWritten - v))) :
    (simulateAchieved t v).1 + (simulateAchieved t v).2 = 100 := by
  unfold simulateAchieved
  dsimp only
  rw [if_pos hpos]
  dsimp only
  field_simp
  ring

/-- Claim C2: for every mode string (known or not) and every value `v`
of the `random.uniform(-3, 3)` perturbation, the achieved AI and human
percentages sum to exactly 100: the clamped pair always has positive
total (the human side stays at least 22), so the renormalization step
runs and forces the sum. -/
theorem claim_C2_achieved_sum (mode : String) (v : ℚ) (h1 : -3 ≤ v) (h2 : v ≤ 3) :
    (simulateAchieved (getTargetPercentages mode) v).1 +
      (simulateAchieved (getTargetPercentages mode) v).2 = 100 := by
  apply simulateAchieved_sum
  unfold getTargetPercentages
  split_ifs <;> dsimp only
  · have hh : (0 : ℚ) < min 100 (25 - v) := lt_min (by norm_num) (by linarith)
    have h4 : (0 : ℚ) ≤ max 0 (min 100 (75 + v)) := le_max_left _ _
    have h5 : (0 : ℚ) < max 0 (min 100 (25 - v)) := lt_max_iff.mpr (Or.inr hh)
    linarith
  · have hh : (0 : ℚ) < min 100 (50 - v) := lt_min (by norm_num) (by linarith)
    have h4 : (0 : ℚ) ≤ max 0 (min 100 (50 + v)) := le_max_left _ _
    have h5 : (0 : ℚ) < max 0 (min 100 (50 - v)) := lt_max_iff.mpr (Or.inr hh)
    linarith
  · have hh : (0 : ℚ) < min 100 (100 - v) := lt_min (by norm_num) (by linarith)
    have h4 : (0 : ℚ) ≤ max 0 (min 100 (0 + v)) := le_max_left _ _
    have h5 : (0 : ℚ) < max 0 (min 100 (100 - v)) := lt_max_iff.mpr (Or.inr hh)
    linarith
  · have hh : (0 : ℚ) < min 100 (50 - v) := lt_min (by norm_num) (by linarith)
    have h4 : (0 : ℚ) ≤ max 0 (min 100 (50 + v)) := le_max_left _ _
    have h5 : (0 : ℚ) < max 0 (min 100 (50 - v)) := lt_max_iff.mpr (Or.inr hh)
    linarith

theorem claim_C2_achieved_sum_witness :
    (-3 : ℚ) ≤ 2 ∧ (2 : ℚ) ≤ 3 ∧
      (simulateAchieved (getTargetPercentages "fast") 2).1 +
        (simulateAchieved (getTargetPercentages "fast") 2).2 = 100 :=
  ⟨by norm_num, by norm_num,
   claim_C2_achieved_sum "fast" 2 (by norm_num) (by norm_num)⟩

/-! ## Claim C3: self-comparison -/

theorem roundTo_one (d : ℕ) : roundTo d 1 = 1 := by
  have h := roundTo_intCast d 1
  push_cast at h
  exact h

theorem roundTo_hundred (d : ℕ) : roundTo d 100 = 100 := by
  have h := roundTo_intCast d 100
  push_cast at h
  exact h

/-- Claim C3: comparing a non-empty text with itself yields character,
word and sentence similarity 1.0 and preservation score 100. -/
theorem claim_C3_self_comparison (X : List Char) (hne : X ≠ []) :
    (calcSimilarityMetrics X X).charSim = 1 ∧
    (calcSimilarityMetrics X X).wordSim = 1 ∧
    (calcSimilarityMetrics X X).sentSim = 1 ∧
    preservationScore X X = 100 := by
  refine ⟨?_, ?_, ?_, ?_⟩
  · show roundTo 3 (matcherSimilarity X X) = 1
    rw [matcherSimilarity_self, roundTo_one]
  · show roundTo 3 (matcherSimilarity (splitWords X) (splitWords X)) = 1
    rw [matcherSimilarity_self, roundTo_one]
  · show roundTo 3 (matcherSimilarity (splitSentences X) (splitSentences X)) = 1
    rw [matcherSimilarity_self, roundTo_one]
  · unfold preservationScore
    have hadd : addedCount X X = 0 := by
      unfold addedCount
      rw [List.length_eq_zero, List.filter_eq_nil_iff]
      intro w hw
      simp only [decide_eq_true_eq, Decidable.not_not]
      exact List.mem_dedup.mp hw
    have hrem : removedCount X X = 0 := by
      unfold removedCount
      rw [List.length_eq_zero, List.filter_eq_nil_iff]
      intro w hw
      simp only [decide_eq_true_eq, Decidable.not_not]
      exact List.mem_dedup.mp hw
    have hsent : sentCountChange X X = 0 := by
      unfold sentCountChange
      omega
    have hpunct : punctChangedCount X X = 0 := by
      unfold punctChangedCount
      rw [List.length_eq_zero, List.filter_eq_nil_iff]
      intro p _
      simp
    rw [hadd, hrem, hsent, hpunct]
    norm_num
    exact roundTo_hundred 2

theorem claim_C3_self_comparison_witness :
    ("ab".data ≠ []) ∧
      (calcSimilarityMetrics "ab".data "ab".data).charSim = 1 ∧
      (calcSimilarityMetrics "ab".data "ab".data).wordSim = 1 ∧
      (calcSimilarityMetrics "ab".data "ab".data).sentSim = 1 ∧
      preservationScore "ab".data "ab".data = 100 :=
  ⟨by decide, claim_C3_self_comparison "ab".data (by decide)⟩

/-! ## Claim C4: readability bounds -/

/-- Claim C4: for every text with at least one sentence and at least
one word, the Flesch Reading Ease is within [0, 100] and the three
grade-level indices are nonnegative (the formulas floor/clamp before
rounding, and rounding preserves the bounds). -/
theorem claim_C4_readability_bounds (text : List Char)
    (hs : splitSentences text ≠ []) (hw : splitWords text ≠ []) :
    ∃ r, calcReadability text = some r ∧
      0 ≤ r.flesch ∧ r.flesch ≤ 100 ∧
      0 ≤ r.fkGrade ∧ 0 ≤ r.ari ∧ 0 ≤ r.colemanLiau := by
  unfold calcReadability
  rw [if_neg (by
    push_neg
    exact ⟨fun h => hs (List.length_eq_zero.mp h), fun h => hw (List.length_eq_zero.mp h)⟩)]
  refine ⟨_, rfl, ?_, ?_, ?_, ?_, ?_⟩
  · exact roundTo_nonneg (le_max_left _ _)
  · have hle : max 0 (min 100 (206.835 - 1.015 * ((splitWords text).length /
        ((splitSentences text).length : ℚ)) -
        84.6 * ((((splitWords text).map countSyllables).sum : ℕ) /
          ((splitWords text).length : ℚ)))) ≤ ((100 : ℤ) : ℚ) := by
      push_cast
      exact max_le (by norm_num) (min_le_left _ _)
    have := roundTo_le (d := 2) hle
    exact_mod_cast this
  · exact roundTo_nonneg (le_max_left _ _)
  · exact roundTo_nonneg (le_max_left _ _)
  · exact roundTo_nonneg (le_max_left _ _)

theorem claim_C4_readability_bounds_witness :
    ∃ r, calcReadability "The cat sat.".data = some r ∧
      0 ≤ r.flesch ∧ r.flesch ≤ 100 ∧
      0 ≤ r.fkGrade ∧ 0 ≤ r.ari ∧ 0 ≤ r.colemanLiau :=
  claim_C4_readability_bounds "The cat sat.".data (by decide) (by decide)

/-! ## Claim C9: the comparison engine's sentence count disagrees with
the shared segmenter -/

/-- Claim C9 (code bug): `_get_text_stats` counts sentences as
`len(re.split(r'[.!?]+', text)) - 1`, justified by the inline comment
"split creates empty string at end" — which only holds when the text
ends with terminal punctuation.  On `"Hello"` it reports 0 sentences
while the shared segmenter (`_split_sentences`) reports 1. -/
theorem claim_C9_sentence_count_mismatch :
    statsSentenceCount "Hello".data = 0 ∧
      (splitSentences "Hello".data).length = 1 := by
  constructor
  · rfl
  · rfl

end Ai2Human

namespace Ai2Human

/-! ## Claim C7: cleanup_old_batches boundary -/

theorem cleanupOldBatches_eq_filter (jobs : List (String × Job)) (mah now : ℚ)
    (hnd : (jobs.map Prod.fst).Nodup) :
    cleanupOldBatches jobs mah now =
      jobs.filter (fun e => decide (¬ (mah * 3600 < now - e.2.startTime))) := by
  unfold cleanupOldBatches
  apply List.filter_congr
  intro e he
  rw [decide_eq_decide]
  constructor
  · intro hnotmem
    intro hlt
    apply hnotmem
    apply List.mem_map_of_mem Prod.fst
    exact List.mem_filter.mpr ⟨he, by simpa using hlt⟩
  · intro hage hmem
    obtain ⟨e', he'mem, he'eq⟩ := List.mem_map.mp hmem
    have he'jobs : e' ∈ jobs := (List.mem_filter.mp he'mem).1
    have he'cond : mah * 3600 < now - e'.2.startTime := by
      have := (List.mem_filter.mp he'mem).2
      simpa using this
    have heq : e' = e := List.inj_on_of_nodup_map hnd he'jobs he he'eq
    rw [heq] at he'cond
    exact hage he'cond

/-- Claim C7 counterexample: `cleanup_old_batches(0)` does not remove a
job record whose age is exactly zero (start time equal to the current
time), so it does not remove every existing record. -/
theorem claim_C7_counterexample :
    cleanupOldBatches [("b", ⟨1, 0, 0, 5, "processing"⟩)] 0 5 =
      [("b", ⟨1, 0, 0, 5, "processing"⟩)] ∧
    ([("b", (⟨1, 0, 0, 5, "processing"⟩ : Job))] : List (String × Job)) ≠ [] := by
  constructor
  · rw [cleanupOldBatches_eq_filter _ _ _ (by simp)]
    rw [List.filter_eq_self]
    intro e he
    simp only [List.mem_singleton] at he
    subst he
    simp only [decide_eq_true_eq]
    norm_num
  · simp

/-- Claim C7 (amended): a record is evicted iff its age is *strictly*
greater than `max_age_hours * 3600` seconds.  Hence `cleanup(0)`
removes exactly the records started strictly before the current time
(a record of age zero survives), and any `max_age_hours` bounding all
ages from above removes nothing. -/
theorem claim_C7_cleanup_bounds (jobs : List (String × Job)) (now : ℚ)
    (hnd : (jobs.map Prod.fst).Nodup) :
    cleanupOldBatches jobs 0 now =
      jobs.filter (fun e => decide (¬ (0 < now - e.2.startTime))) ∧
    ∀ h : ℚ, (∀ e ∈ jobs, now - e.2.startTime ≤ h * 3600) →
      cleanupOldBatches jobs h now = jobs := by
  constructor
  · rw [cleanupOldBatches_eq_filter _ _ _ hnd]
    apply List.filter_congr
    intro e _
    rw [decide_eq_decide]
    constructor
    · intro hx
      intro h0
      exact hx (by linarith)
    · intro hx
      intro h0
      exact hx (by linarith)
  · intro h hall
    rw [cleanupOldBatches_eq_filter _ _ _ hnd]
    rw [List.filter_eq_self]
    intro e he
    simp only [decide_eq_true_eq]
    intro hlt
    exact absurd (hall e he) (by linarith)

theorem claim_C7_cleanup_bounds_witness :
    cleanupOldBatches [("b", ⟨1, 0, 0, 5, "processing"⟩)] 1 5 =
      [("b", ⟨1, 0, 0, 5, "processing"⟩)] :=
  (claim_C7_cleanup_bounds [("b", ⟨1, 0, 0, 5, "processing"⟩)] 5 (by simp)).2 1 (by
    intro e he
    simp only [List.mem_singleton] at he
    subst he
    norm_num)

/-! ## Claim C8: mode validation -/

/-- Claim C8 counterexample: the single-text `/api/humanize` route does
not reject the invalid mode `"turbo"`: its validation passes with no
error, and the request is processed with the balanced fallback
(target profile 50/50, intensity 0.7) — so it is not the case that
every public mode-taking operation rejects an invalid mode before any
processing. -/
theorem claim_C8_counterexample :
    humanizeRouteError "hello".data "turbo" = none ∧
    getTargetPercentages "turbo" = ⟨50, 50⟩ ∧
    calcIntensity "turbo" = 0.7 :=
  ⟨rfl, rfl, rfl⟩

/-- Claim C8 (amended): mode validation is split between the two public
operations.  The `/api/batch` endpoint rejects any (lowercased) mode
outside fast/balanced/aggressive with an input-validation error
surfaced directly to the caller before the batch service runs, leaving
the job table untouched; the single-text `/api/humanize` route never
validates the mode, and such a mode is processed with the balanced
fallback profile (targets 50/50) and the default intensity 0.7. -/
theorem claim_C8_mode_validation (mode : String)
    (h1 : mode ≠ "fast") (h2 : mode ≠ "balanced") (h3 : mode ≠ "aggressive") :
    (∀ (jobs : List (String × Job)) (texts : List (List Char)) (bid : String)
       (outcome : ℕ → Bool) (order : List ℕ) (now : ℚ), texts ≠ [] →
       processBatchRoute jobs texts mode bid outcome order now =
         (jobs, Except.error "Invalid mode. Must be fast, balanced, or aggressive")) ∧
    (∀ text : List Char, humanizeRouteError text mode = humanizeRouteError text "balanced") ∧
    getTargetPercentages mode = ⟨50, 50⟩ ∧
    calcIntensity mode = 0.7 := by
  refine ⟨?_, ?_, ?_, ?_⟩
  · intro jobs texts bid outcome order now hne
    have hmem : mode ∉ (["fast", "balanced", "aggressive"] : List String) := by
      simp [h1, h2, h3]
    have hv : batchRouteError texts mode =
        some "Invalid mode. Must be fast, balanced, or aggressive" := by
      unfold batchRouteError
      rw [if_neg hne, if_pos hmem]
    unfold processBatchRoute
    rw [hv]
  · intro text
    rfl
  · unfold getTargetPercentages
    rw [if_neg h1, if_neg h2, if_neg h3]
  · unfold calcIntensity
    rw [if_neg h1, if_neg h2, if_neg h3]

theorem claim_C8_mode_validation_witness :
    processBatchRoute [] ["hi".data] "turbo" "B" (fun _ => true) [0] 0 =
      ([], Except.error "Invalid mode. Must be fast, balanced, or aggressive") ∧
    humanizeRouteError "hello".data "turbo" = humanizeRouteError "hello".data "balanced" ∧
    getTargetPercentages "turbo" = ⟨50, 50⟩ ∧
    calcIntensity "turbo" = 0.7 :=
  have h := claim_C8_mode_validation "turbo" (by decide) (by decide) (by decide)
  ⟨h.1 [] ["hi".data] "B" (fun _ => true) [0] 0 (by decide), h.2.1 "hello".data,
    h.2.2.1, h.2.2.2⟩

end Ai2Human

namespace Ai2Human

/-! ## Claim C6: batch validation and result ordering -/

/-- The comparison used by the final `results.sort(key=lambda x: x['index'])`. -/
def indexLe (x y : ItemResult) : Bool := decide (x.index ≤ y.index)

theorem processTextsParallel_indices (outcome : ℕ → Bool) (order : List ℕ)
    (j : Job) (n : ℕ) (hperm : order.Perm (List.range n)) :
    ((processTextsParallel outcome order j).1.map ItemResult.index) = List.range n := by
  unfold processTextsParallel
  dsimp only
  set f : ℕ → ItemResult := fun i => ItemResult.mk i (outcome i) with hf
  set rs := (order.map f).mergeSort (fun x y => decide (x.index ≤ y.index)) with hrs
  have hperm1 : rs.Perm (order.map f) := List.mergeSort_perm (order.map f) _
  have hkeysperm : (rs.map ItemResult.index).Perm order := by
    have h2 := hperm1.map ItemResult.index
    rw [List.map_map] at h2
    have h3 : (ItemResult.index ∘ f) = id := by
      funext i
      rfl
    rw [h3, List.map_id] at h2
    exact h2
  have hkeysperm2 : (rs.map ItemResult.index).Perm (List.range n) :=
    hkeysperm.trans hperm
  have hsorted : (rs.map ItemResult.index).Sorted (· ≤ ·) := by
    have h1 := @List.sorted_mergeSort ItemResult
      (fun x y : ItemResult => decide (x.index ≤ y.index))
      (fun a b c hab hbc => by
        simp only [decide_eq_true_eq] at hab hbc ⊢
        omega)
      (fun a b => by
        simp only [Bool.or_eq_true, decide_eq_true_eq]
        omega)
      (order.map f)
    rw [← hrs] at h1
    have h2 : rs.Pairwise (fun a b : ItemResult => a.index ≤ b.index) := by
      apply h1.imp
      intro a b hab
      simpa using hab
    exact List.Pairwise.map _ (fun a b hab => hab) h2
  have hrange : (List.range n).Sorted (· ≤ ·) := by
    apply List.Pairwise.imp (fun {a b} h => Nat.le_of_lt h)
    exact List.pairwise_lt_range n
  exact List.eq_of_perm_of_sorted hkeysperm2 hsorted hrange

/-- Claim C6: `process_batch` rejects an empty list and a list of more
than 50 texts before touching the job table; for every accepted list
and every completion order of the worker pool, the returned results
carry each original index exactly once, in original input order. -/
theorem claim_C6_batch_order (jobs : List (String × Job)) (texts : List (List Char))
    (mode bid : String) (outcome : ℕ → Bool) (order : List ℕ) (now : ℚ) :
    (texts = [] → processBatch jobs texts mode bid outcome order now =
      (jobs, Except.error "No texts provided for batch processing")) ∧
    (50 < texts.length → processBatch jobs texts mode bid outcome order now =
      (jobs, Except.error "Batch size too large. Maximum 50 texts allowed.")) ∧
    (texts ≠ [] → texts.length ≤ 50 → order.Perm (List.range texts.length) →
      ∃ rs, (processBatch jobs texts mode bid outcome order now).2 = Except.ok rs ∧
        rs.map ItemResult.index = List.range texts.length) := by
  refine ⟨?_, ?_, ?_⟩
  · intro he
    have hv : batchValidationError texts = some "No texts provided for batch processing" := by
      unfold batchValidationError
      rw [if_pos he]
    unfold processBatch
    rw [hv]
  · intro hgt
    have hne : texts ≠ [] := by
      intro he
      rw [he] at hgt
      simp at hgt
    have hv : batchValidationError texts =
        some "Batch size too large. Maximum 50 texts allowed." := by
      unfold batchValidationError
      rw [if_neg hne, if_pos hgt]
    unfold processBatch
    rw [hv]
  · intro hne hlen hperm
    have hv : batchValidationError texts = none := by
      unfold batchValidationError
      rw [if_neg hne, if_neg (by omega)]
    unfold processBatch
    rw [hv]
    exact ⟨_, rfl, processTextsParallel_indices outcome order _ texts.length hperm⟩

theorem claim_C6_batch_order_witness :
    ∃ rs, (processBatch [] ["a".data, "b".data] "balanced" "B" (fun _ => true)
        [1, 0] 0).2 = Except.ok rs ∧
      rs.map ItemResult.index = List.range 2 :=
  (claim_C6_batch_order [] ["a".data, "b".data] "balanced" "B" (fun _ => true)
      [1, 0] 0).2.2 (by decide) (by decide)
    (by
      show [1, 0].Perm (List.range 2)
      have h : List.range 2 = [0, 1] := rfl
      rw [h]
      exact List.Perm.swap 0 1 [])

/-! ## Claim C10: progress counts only successes -/

theorem runBatchJob_counters (outcome : ℕ → Bool) (order : List ℕ) (j : Job) :
    (order.foldl (fun j i =>
        if outcome i then {j with completed := j.completed + 1}
        else {j with failed := j.failed + 1}) j).completed =
      j.completed + (order.filter outcome).length ∧
    (order.foldl (fun j i =>
        if outcome i then {j with completed := j.completed + 1}
        else {j with failed := j.failed + 1}) j).failed =
      j.failed + (order.filter (fun i => !(outcome i))).length ∧
    (order.foldl (fun j i =>
        if outcome i then {j with completed := j.completed + 1}
        else {j with failed := j.failed + 1}) j).total = j.total ∧
    (order.foldl (fun j i =>
        if outcome i then {j with completed := j.completed + 1}
        else {j with failed := j.failed + 1}) j).startTime = j.startTime := by
  induction order generalizing j with
  | nil => simp
  | cons i rest ih =>
    simp only [List.foldl_cons, List.filter_cons]
    by_cases hi : outcome i
    · rw [if_pos hi]
      have := ih {j with completed := j.completed + 1}
      simp only [hi] at *
      refine ⟨?_, ?_, ?_, ?_⟩ <;> simp [this.1, this.2.1, this.2.2.1, this.2.2.2] <;> omega
    · rw [if_neg hi]
      have := ih {j with failed := j.failed + 1}
      simp only [hi] at *
      refine ⟨?_, ?_, ?_, ?_⟩ <;>
        simp [this.1, this.2.1, this.2.2.1, this.2.2.2, Bool.not_eq_true] <;> omega

/-- Claim C10: the job's `completed` counter counts only successfully
processed items; a batch that finishes with at least one failed item
still ends with status `"completed"` while its reported
`progress_percentage` stays strictly below 100. -/
theorem claim_C10_progress (jobs : List (String × Job)) (texts : List (List Char))
    (mode bid : String) (outcome : ℕ → Bool) (order : List ℕ) (now : ℚ)
    (hne : texts ≠ []) (hlen : texts.length ≤ 50)
    (hperm : order.Perm (List.range texts.length)) :
    ∃ j : Job, (processBatch jobs texts mode bid outcome order now).1 = (bid, j) :: jobs ∧
      j.completed = ((List.range texts.length).filter outcome).length ∧
      j.total = texts.length ∧
      j.status = "completed" ∧
      ((∃ i ∈ List.range texts.length, outcome i = false) →
        progressPercentage j < 100) := by
  have hv : batchValidationError texts = none := by
    unfold batchValidationError
    rw [if_neg hne, if_neg (by omega)]
  have hcnt := runBatchJob_counters outcome order ⟨texts.length, 0, 0, now, "processing"⟩
  have hc1 : (processTextsParallel outcome order
      ⟨texts.length, 0, 0, now, "processing"⟩).2.completed =
      ((List.range texts.length).filter outcome).length := by
    unfold processTextsParallel
    dsimp only
    rw [hcnt.1]
    simp only [Nat.zero_add]
    exact (hperm.filter outcome).length_eq
  have hc2 : (processTextsParallel outcome order
      ⟨texts.length, 0, 0, now, "processing"⟩).2.total = texts.length := by
    unfold processTextsParallel
    dsimp only
    exact hcnt.2.2.1
  unfold processBatch
  rw [hv]
  dsimp only
  refine ⟨_, rfl, ?_, ?_, rfl, ?_⟩
  · exact hc1
  · exact hc2
  · intro hfail
    have hn : 0 < texts.length := List.length_pos.mpr hne
    have hlt : ((List.range texts.length).filter outcome).length < texts.length := by
      obtain ⟨i, hi, hio⟩ := hfail
      have := List.length_filter_lt_length_iff_exists (l := List.range texts.length)
        (p := outcome)
      rw [List.length_range] at this
      exact this.mpr ⟨i, hi, by simp [hio]⟩
    unfold progressPercentage
    dsimp only
    rw [hc1, hc2]
    rw [if_pos hn]
    have hnQ : (0 : ℚ) < (texts.length : ℚ) := by exact_mod_cast hn
    have hcQ : (((List.range texts.length).filter outcome).length : ℚ) ≤
        (texts.length : ℚ) - 1 := by
      have : ((List.range texts.length).filter outcome).length + 1 ≤ texts.length := hlt
      have h2 : (((List.range texts.length).filter outcome).length : ℚ) + 1 ≤
          (texts.length : ℚ) := by exact_mod_cast this
      linarith
    have hlenQ : (texts.length : ℚ) ≤ 50 := by exact_mod_cast hlen
    have hx : (((List.range texts.length).filter outcome).length : ℚ) /
        (texts.length : ℚ) * 100 ≤ ((98 : ℤ) : ℚ) := by
      rw [div_mul_eq_mul_div, div_le_iff₀ hnQ]
      push_cast
      nlinarith
    have := roundTo_le (d := 2) hx
    have h98 : ((98 : ℤ) : ℚ) < 100 := by norm_num
    linarith

end Ai2Human

namespace Ai2Human

/-! ## Claim C5: the normalization pass -/

/-- Whether the list contains two adjacent occurrences of `x`. -/
def hasAdjPair (x : Char) : List Char → Bool
  | [] => false
  | [_] => false
  | a :: b :: rest => (decide (a = x) && decide (b = x)) || hasAdjPair x (b :: rest)

theorem hasAdjPair_tail {x a : Char} {l : List Char}
    (h : hasAdjPair x (a :: l) = false) : hasAdjPair x l = false := by
  cases l with
  | nil => rfl
  | cons b rest =>
    unfold hasAdjPair at h
    simp only [Bool.or_eq_false_iff] at h
    exact h.2

theorem hasAdjPair_cons_false {x a : Char} {l : List Char}
    (hhead : a = x → l.head? ≠ some x) (h : hasAdjPair x l = false) :
    hasAdjPair x (a :: l) = false := by
  cases l with
  | nil => rfl
  | cons b rest =>
    unfold hasAdjPair
    simp only [Bool.or_eq_false_iff, Bool.and_eq_false_iff]
    refine ⟨?_, h⟩
    by_cases hax : a = x
    · right
      have := hhead hax
      simp only [List.head?_cons, ne_eq, Option.some.injEq] at this
      simpa using this
    · left
      simpa using hax

theorem hasAdjPair_suffix {x : Char} :
    ∀ (u v : List Char), hasAdjPair x (u ++ v) = false → hasAdjPair x v = false := by
  intro u
  induction u with
  | nil => intro v h; simpa using h
  | cons a u ih =>
    intro v h
    rw [List.cons_append] at h
    exact ih v (hasAdjPair_tail h)

theorem hasAdjPair_prefix {x : Char} :
    ∀ (u v : List Char), hasAdjPair x (u ++ v) = false → hasAdjPair x u = false := by
  intro u
  induction u with
  | nil => intro v _; rfl
  | cons a u ih =>
    intro v h
    cases u with
    | nil => rfl
    | cons b u' =>
      rw [List.cons_append, List.cons_append] at h
      have h' : hasAdjPair x ((b :: u') ++ v) = false := by
        rw [List.cons_append]
        exact hasAdjPair_tail h
      have h2 := ih v h'
      have h1 : (decide (a = x) && decide (b = x)) = false := by
        simp only [hasAdjPair, Bool.or_eq_false_iff] at h
        exact h.1
      simp only [hasAdjPair, Bool.or_eq_false_iff]
      exact ⟨h1, h2⟩

theorem hasAdjPair_of_forall_ne {x : Char} :
    ∀ {l : List Char}, (∀ c ∈ l, c ≠ x) → hasAdjPair x l = false := by
  intro l
  induction l with
  | nil => intro _; rfl
  | cons a l ih =>
    intro h
    cases l with
    | nil => rfl
    | cons b rest =>
      unfold hasAdjPair
      simp only [Bool.or_eq_false_iff, Bool.and_eq_false_iff]
      refine ⟨Or.inl (by simpa using h a (by simp)), ih ?_⟩
      intro c hc
      exact h c (List.mem_cons_of_mem a hc)

theorem hasAdjPair_append_safe {x : Char} :
    ∀ (u t : List Char), (∀ c ∈ u, c ≠ x) → hasAdjPair x t = false →
      hasAdjPair x (u ++ t) = false := by
  intro u
  induction u with
  | nil => intro t _ ht; simpa using ht
  | cons a u ih =>
    intro t hu ht
    rw [List.cons_append]
    apply hasAdjPair_cons_false
    · intro hax
      exact absurd hax (hu a (by simp))
    · exact ih t (fun c hc => hu c (List.mem_cons_of_mem a hc)) ht

theorem head?_dropWhile {p : Char → Bool} :
    ∀ {l : List Char} {c : Char}, (l.dropWhile p).head? = some c → p c = false := by
  intro l
  induction l with
  | nil => intro c h; simp [List.dropWhile] at h
  | cons a l ih =>
    intro c h
    rw [List.dropWhile_cons] at h
    by_cases hp : p a
    · rw [if_pos hp] at h
      exact ih h
    · rw [if_neg hp] at h
      simp only [List.head?_cons, Option.some.injEq] at h
      rw [← h]
      simpa using hp

theorem getLast?_dropWhile {p : Char → Bool} :
    ∀ {l : List Char}, l.dropWhile p ≠ [] → (l.dropWhile p).getLast? = l.getLast? := by
  intro l
  induction l with
  | nil => intro h; simp [List.dropWhile] at h
  | cons a l ih =>
    intro h
    rw [List.dropWhile_cons] at h ⊢
    by_cases hp : p a
    · rw [if_pos hp] at h ⊢
      cases l with
      | nil => simp [List.dropWhile] at h
      | cons b l' =>
        rw [ih h, List.getLast?_cons_cons]
    · rw [if_neg hp]

theorem pyStrip_head {l : List Char} {c : Char}
    (h : (pyStrip l).head? = some c) : pyWs c = false := by
  unfold pyStrip at h
  rw [List.head?_reverse] at h
  by_cases hr : (l.dropWhile pyWs).reverse.dropWhile pyWs = []
  · rw [hr] at h
    simp at h
  · rw [getLast?_dropWhile hr, List.getLast?_reverse] at h
    exact head?_dropWhile h

theorem pyStrip_getLast {l : List Char} {c : Char}
    (h : (pyStrip l).getLast? = some c) : pyWs c = false := by
  unfold pyStrip at h
  rw [List.getLast?_reverse] at h
  exact head?_dropWhile h

theorem pyStrip_hasAdjPair {x : Char} {l : List Char}
    (h : hasAdjPair x l = false) : hasAdjPair x (pyStrip l) = false := by
  unfold pyStrip
  obtain ⟨u, hu⟩ := List.dropWhile_suffix (l := l) pyWs
  have hm : hasAdjPair x (l.dropWhile pyWs) = false := by
    apply hasAdjPair_suffix u
    rw [hu]
    exact h
  obtain ⟨w, hw⟩ := List.dropWhile_suffix (l := (l.dropWhile pyWs).reverse) pyWs
  have hpre : l.dropWhile pyWs =
      ((l.dropWhile pyWs).reverse.dropWhile pyWs).reverse ++ w.reverse := by
    have := congrArg List.reverse hw
    rw [List.reverse_append, List.reverse_reverse] at this
    exact this.symm
  apply hasAdjPair_prefix _ w.reverse
  rw [← hpre]
  exact hm

end Ai2Human

namespace Ai2Human

theorem hasAdjPair_head_true {x : Char} {l : List Char} (hh : l.head? = some x) :
    hasAdjPair x (x :: l) = true := by
  cases l with
  | nil => simp at hh
  | cons b rest =>
    simp only [List.head?_cons, Option.some.injEq] at hh
    unfold hasAdjPair
    simp [hh]

theorem collapseDotsAux_head_ne :
    ∀ {l : List Char} {c : Char},
      ((collapseRunsAux (fun c => c = '.') '.' l true).head? = some c) → c ≠ '.' := by
  intro l
  induction l with
  | nil =>
    intro c h
    simp [collapseRunsAux] at h
  | cons a l ih =>
    intro c h
    by_cases ha : a = '.'
    · rw [show collapseRunsAux (fun c => c = '.') '.' (a :: l) true =
          collapseRunsAux (fun c => c = '.') '.' l true by simp [collapseRunsAux, ha]] at h
      exact ih h
    · rw [show collapseRunsAux (fun c => c = '.') '.' (a :: l) true =
          a :: collapseRunsAux (fun c => c = '.') '.' l false by
            simp [collapseRunsAux, ha]] at h
      simp only [List.head?_cons, Option.some.injEq] at h
      rw [← h]
      exact ha

theorem collapseDots_noAdj :
    ∀ (l : List Char) (flag : Bool),
      hasAdjPair '.' (collapseRunsAux (fun c => c = '.') '.' l flag) = false := by
  intro l
  induction l with
  | nil => intro flag; rfl
  | cons a l ih =>
    intro flag
    by_cases ha : a = '.'
    · cases flag with
      | true =>
        rw [show collapseRunsAux (fun c => c = '.') '.' (a :: l) true =
            collapseRunsAux (fun c => c = '.') '.' l true by simp [collapseRunsAux, ha]]
        exact ih true
      | false =>
        rw [show collapseRunsAux (fun c => c = '.') '.' (a :: l) false =
            '.' :: collapseRunsAux (fun c => c = '.') '.' l true by
              simp [collapseRunsAux, ha]]
        apply hasAdjPair_cons_false
        · intro _ hh
          obtain ⟨d, hd⟩ : ∃ d, (collapseRunsAux (fun c => c = '.') '.' l true).head? =
              some d := ⟨'.', hh⟩
          rw [hd] at hh
          simp only [Option.some.injEq] at hh
          exact collapseDotsAux_head_ne hd hh
        · exact ih true
    · rw [show collapseRunsAux (fun c => c = '.') '.' (a :: l) flag =
          a :: collapseRunsAux (fun c => c = '.') '.' l false by
            simp [collapseRunsAux, ha]]
      apply hasAdjPair_cons_false
      · intro hax
        exact absurd hax ha
      · exact ih false

theorem dedupCommasAux_some_head :
    ∀ (l : List Char) (ws : List Char),
      (dedupCommasAux l (some ws)).head? = some ',' := by
  intro l
  induction l with
  | nil => intro ws; rfl
  | cons a cs ih =>
    intro ws
    by_cases ha : a = ','
    · rw [show dedupCommasAux (a :: cs) (some ws) = ',' :: dedupCommasAux cs none by
        simp [dedupCommasAux, ha]]
      rfl
    · by_cases hw : pyWs a
      · rw [show dedupCommasAux (a :: cs) (some ws) =
            dedupCommasAux cs (some (a :: ws)) by simp [dedupCommasAux, ha, hw]]
        exact ih (a :: ws)
      · rw [show dedupCommasAux (a :: cs) (some ws) =
            ',' :: (ws.reverse ++ a :: dedupCommasAux cs none) by
              simp [dedupCommasAux, ha, hw]]
        rfl

theorem dedupCommasAux_none_head {l : List Char}
    (h : (dedupCommasAux l none).head? = some '.') : l.head? = some '.' := by
  cases l with
  | nil => simp [dedupCommasAux] at h
  | cons a cs =>
    by_cases ha : a = ','
    · rw [show dedupCommasAux (a :: cs) none = dedupCommasAux cs (some []) by
        simp [dedupCommasAux, ha]] at h
      rw [dedupCommasAux_some_head cs []] at h
      simp at h
    · rw [show dedupCommasAux (a :: cs) none = a :: dedupCommasAux cs none by
        simp [dedupCommasAux, ha]] at h
      simp only [List.head?_cons, Option.some.injEq] at h
      simp [h]

theorem dedupCommas_noAdj :
    ∀ (l : List Char), hasAdjPair '.' l = false →
      hasAdjPair '.' (dedupCommasAux l none) = false ∧
      ∀ ws, (∀ w ∈ ws, pyWs w = true) →
        hasAdjPair '.' (dedupCommasAux l (some ws)) = false := by
  intro l
  induction l with
  | nil =>
    intro _
    refine ⟨rfl, ?_⟩
    intro ws hws
    rw [show dedupCommasAux [] (some ws) = ',' :: ws.reverse by rfl]
    apply hasAdjPair_of_forall_ne
    intro c hc
    rcases List.mem_cons.mp hc with hc | hc
    · rw [hc]; decide
    · have hw := hws c (List.mem_reverse.mp hc)
      intro hcd
      rw [hcd] at hw
      simp [pyWs] at hw
  | cons a cs ih =>
    intro h
    have hcs := hasAdjPair_tail h
    obtain ⟨ih1, ih2⟩ := ih hcs
    have hfl : a = '.' → (dedupCommasAux cs none).head? ≠ some '.' := by
      intro ha hh
      have hhead := dedupCommasAux_none_head hh
      rw [ha] at h
      rw [hasAdjPair_head_true hhead] at h
      exact absurd h (by simp)
    constructor
    · by_cases ha : a = ','
      · rw [show dedupCommasAux (a :: cs) none = dedupCommasAux cs (some []) by
          simp [dedupCommasAux, ha]]
        exact ih2 [] (by simp)
      · rw [show dedupCommasAux (a :: cs) none = a :: dedupCommasAux cs none by
          simp [dedupCommasAux, ha]]
        exact hasAdjPair_cons_false hfl ih1
    · intro ws hws
      by_cases ha : a = ','
      · rw [show dedupCommasAux (a :: cs) (some ws) = ',' :: dedupCommasAux cs none by
          simp [dedupCommasAux, ha]]
        apply hasAdjPair_cons_false
        · intro hc; exact absurd hc (by decide)
        · exact ih1
      · by_cases hw : pyWs a
        · rw [show dedupCommasAux (a :: cs) (some ws) =
              dedupCommasAux cs (some (a :: ws)) by simp [dedupCommasAux, ha, hw]]
          apply ih2
          intro w hmem
          rcases List.mem_cons.mp hmem with hm | hm
          · rw [hm]; exact hw
          · exact hws w hm
        · rw [show dedupCommasAux (a :: cs) (some ws) =
              ',' :: (ws.reverse ++ a :: dedupCommasAux cs none) by
                simp [dedupCommasAux, ha, hw]]
          apply hasAdjPair_cons_false
          · intro hc; exact absurd hc (by decide)
          · apply hasAdjPair_append_safe
            · intro c hc
              have hwc := hws c (List.mem_reverse.mp hc)
              intro hcd
              rw [hcd] at hwc
              simp [pyWs] at hwc
            · exact hasAdjPair_cons_false hfl ih1

end Ai2Human

namespace Ai2Human

theorem emDashFixAux_buffer_head_ne :
    ∀ (l ws : List Char), ws ≠ [] → (∀ w ∈ ws, pyWs w = true) →
      ∀ c, (emDashFixAux l (.buffer ws)).head? = some c → c ≠ '.' := by
  intro l
  induction l with
  | nil =>
    intro ws hne hws c h
    rw [show emDashFixAux [] (.buffer ws) = ws.reverse by rfl] at h
    have hc : c ∈ ws := List.mem_reverse.mp (List.mem_of_mem_head? h)
    have := hws c hc
    intro hcd
    rw [hcd] at this
    simp [pyWs] at this
  | cons a cs ih =>
    intro ws hne hws c h
    by_cases hd : a = '—'
    · rw [show emDashFixAux (a :: cs) (.buffer ws) =
          ' ' :: '—' :: ' ' :: emDashFixAux cs .skip by simp [emDashFixAux, hd]] at h
      simp only [List.head?_cons, Option.some.injEq] at h
      rw [← h]
      decide
    · by_cases hw : pyWs a
      · rw [show emDashFixAux (a :: cs) (.buffer ws) =
            emDashFixAux cs (.buffer (a :: ws)) by simp [emDashFixAux, hd, hw]] at h
        apply ih (a :: ws) (by simp) ?_ c h
        intro w hmem
        rcases List.mem_cons.mp hmem with hm | hm
        · rw [hm]; exact hw
        · exact hws w hm
      · rw [show emDashFixAux (a :: cs) (.buffer ws) =
            ws.reverse ++ a :: emDashFixAux cs .normal by simp [emDashFixAux, hd, hw]] at h
        obtain ⟨w0, ws', hws'⟩ : ∃ w0 ws', ws.reverse = w0 :: ws' := by
          cases hrev : ws.reverse with
          | nil =>
            exact absurd (by simpa using congrArg List.reverse hrev) hne
          | cons w0 ws' => exact ⟨w0, ws', rfl⟩
        rw [hws'] at h
        simp only [List.cons_append, List.head?_cons, Option.some.injEq] at h
        have hc : c ∈ ws := by
          rw [← List.mem_reverse, hws', h]
          simp
        have := hws c hc
        intro hcd
        rw [hcd] at this
        simp [pyWs] at this

theorem emDashFixAux_normal_head {l : List Char}
    (h : (emDashFixAux l .normal).head? = some '.') : l.head? = some '.' := by
  cases l with
  | nil => simp [emDashFixAux] at h
  | cons a cs =>
    by_cases hd : a = '—'
    · rw [show emDashFixAux (a :: cs) .normal =
          ' ' :: '—' :: ' ' :: emDashFixAux cs .skip by simp [emDashFixAux, hd]] at h
      simp at h
    · by_cases hw : pyWs a
      · rw [show emDashFixAux (a :: cs) .normal =
            emDashFixAux cs (.buffer [a]) by simp [emDashFixAux, hd, hw]] at h
        exact absurd rfl
          (emDashFixAux_buffer_head_ne cs [a] (by simp)
            (by intro w hm; simp at hm; rw [hm]; exact hw) '.' h)
      · rw [show emDashFixAux (a :: cs) .normal =
            a :: emDashFixAux cs .normal by simp [emDashFixAux, hd, hw]] at h
        simp only [List.head?_cons, Option.some.injEq] at h
        simp [h]

theorem emDashFix_noAdj :
    ∀ (l : List Char), hasAdjPair '.' l = false →
      hasAdjPair '.' (emDashFixAux l .normal) = false ∧
      (∀ ws, ws ≠ [] → (∀ w ∈ ws, pyWs w = true) →
        hasAdjPair '.' (emDashFixAux l (.buffer ws)) = false) ∧
      hasAdjPair '.' (emDashFixAux l .skip) = false := by
  intro l
  induction l with
  | nil =>
    intro _
    refine ⟨rfl, ?_, rfl⟩
    intro ws _ hws
    rw [show emDashFixAux [] (.buffer ws) = ws.reverse by rfl]
    apply hasAdjPair_of_forall_ne
    intro c hc
    have := hws c (List.mem_reverse.mp hc)
    intro hcd
    rw [hcd] at this
    simp [pyWs] at this
  | cons a cs ih =>
    intro h
    have hcs := hasAdjPair_tail h
    obtain ⟨ih1, ih2, ih3⟩ := ih hcs
    have hfl : a = '.' → (emDashFixAux cs .normal).head? ≠ some '.' := by
      intro ha hh
      have hhead := emDashFixAux_normal_head hh
      rw [ha] at h
      rw [hasAdjPair_head_true hhead] at h
      exact absurd h (by simp)
    have hdashOut : hasAdjPair '.' (' ' :: '—' :: ' ' :: emDashFixAux cs .skip) = false := by
      apply hasAdjPair_cons_false (by intro hc; exact absurd hc (by decide))
      apply hasAdjPair_cons_false (by intro hc; exact absurd hc (by decide))
      apply hasAdjPair_cons_false (by intro hc; exact absurd hc (by decide))
      exact ih3
    refine ⟨?_, ?_, ?_⟩
    · by_cases hd : a = '—'
      · rw [show emDashFixAux (a :: cs) .normal =
            ' ' :: '—' :: ' ' :: emDashFixAux cs .skip by simp [emDashFixAux, hd]]
        exact hdashOut
      · by_cases hw : pyWs a
        · rw [show emDashFixAux (a :: cs) .normal =
              emDashFixAux cs (.buffer [a]) by simp [emDashFixAux, hd, hw]]
          apply ih2 [a] (by simp)
          intro w hm
          simp at hm
          rw [hm]
          exact hw
        · rw [show emDashFixAux (a :: cs) .normal =
              a :: emDashFixAux cs .normal by simp [emDashFixAux, hd, hw]]
          exact hasAdjPair_cons_false hfl ih1
    · intro ws hne hws
      by_cases hd : a = '—'
      · rw [show emDashFixAux (a :: cs) (.buffer ws) =
            ' ' :: '—' :: ' ' :: emDashFixAux cs .skip by simp [emDashFixAux, hd]]
        exact hdashOut
      · by_cases hw : pyWs a
        · rw [show emDashFixAux (a :: cs) (.buffer ws) =
              emDashFixAux cs (.buffer (a :: ws)) by simp [emDashFixAux, hd, hw]]
          apply ih2 (a :: ws) (by simp)
          intro w hm
          rcases List.mem_cons.mp hm with hm | hm
          · rw [hm]; exact hw
          · exact hws w hm
        · rw [show emDashFixAux (a :: cs) (.buffer ws) =
              ws.reverse ++ a :: emDashFixAux cs .normal by simp [emDashFixAux, hd, hw]]
          apply hasAdjPair_append_safe
          · intro c hc
            have := hws c (List.mem_reverse.mp hc)
            intro hcd
            rw [hcd] at this
            simp [pyWs] at this
          · exact hasAdjPair_cons_false hfl ih1
    · by_cases hw : pyWs a
      · rw [show emDashFixAux (a :: cs) .skip =
            emDashFixAux cs .skip by simp [emDashFixAux, hw]]
        exact ih3
      · by_cases hd : a = '—'
        · rw [show emDashFixAux (a :: cs) .skip =
              ' ' :: '—' :: ' ' :: emDashFixAux cs .skip by
                simp [emDashFixAux, hd, show pyWs '—' = false by decide]]
          exact hdashOut
        · rw [show emDashFixAux (a :: cs) .skip =
              a :: emDashFixAux cs .normal by simp [emDashFixAux, hd, hw]]
          exact hasAdjPair_cons_false hfl ih1

/-- Claim C5 (amended): the final clean-up pass is a deterministic pure
function of its input whose output has no leading or trailing
whitespace and no run of two or more periods.  (Runs of `!` or `?`, a
duplicate comma left by an odd comma run, and a double space between
consecutive em-dashes can survive, as the counterexample shows.) -/
theorem claim_C5_normalization (s : List Char) :
    (∀ c, (cleanupFormatting s).head? = some c → pyWs c = false) ∧
    (∀ c, (cleanupFormatting s).getLast? = some c → pyWs c = false) ∧
    hasAdjPair '.' (cleanupFormatting s) = false := by
  have h0 : hasAdjPair '.' (collapseDots (collapseWs s)) = false :=
    collapseDots_noAdj (collapseWs s) false
  have h1 : hasAdjPair '.' (dedupCommas (collapseDots (collapseWs s))) = false :=
    (dedupCommas_noAdj _ h0).1
  have h2 : hasAdjPair '.' (emDashFix (dedupCommas (collapseDots (collapseWs s)))) = false :=
    (emDashFix_noAdj _ h1).1
  refine ⟨?_, ?_, ?_⟩
  · intro c hc
    exact pyStrip_head hc
  · intro c hc
    exact pyStrip_getLast hc
  · exact pyStrip_hasAdjPair h2

theorem claim_C5_normalization_witness :
    pyWs 'a' = false ∧ pyWs 'b' = false ∧
      hasAdjPair '.' (cleanupFormatting "a.b".data) = false :=
  ⟨(claim_C5_normalization "a.b".data).1 'a' (by decide),
   (claim_C5_normalization "a.b".data).2.1 'b' (by decide),
   (claim_C5_normalization "a.b".data).2.2⟩

/-- Claim C5 counterexample: the pass collapses only runs of periods —
a `!!` run survives, `,,,` leaves a duplicate comma (`re.sub` scanning
is non-overlapping), and respacing two adjacent em-dashes reintroduces
a double space. -/
theorem claim_C5_counterexample :
    cleanupFormatting "Hi!! x,,,y a — — b".data = "Hi!! x,,y a —  — b".data ∧
    hasAdjPair '!' "Hi!! x,,y a —  — b".data = true ∧
    hasAdjPair ',' "Hi!! x,,y a —  — b".data = true ∧
    hasAdjPair ' ' "Hi!! x,,y a —  — b".data = true := by
  refine ⟨by decide, by decide, by decide, by decide⟩

end Ai2Human

namespace Ai2Human

/-! ## Claim C1: the overall humanness score -/

theorem roundHalfEvenR_intCast (n : ℤ) : roundHalfEvenR (n : ℝ) = n := by
  unfold roundHalfEvenR
  rw [Int.floor_intCast]
  norm_num

theorem roundToR_intCast (d : ℕ) (n : ℤ) : roundToR d (n : ℝ) = n := by
  unfold roundToR
  have hcast : ((n : ℝ) * (10 : ℝ) ^ d) = ((n * 10 ^ d : ℤ) : ℝ) := by push_cast; ring
  rw [hcast, roundHalfEvenR_intCast]
  have hp : ((10 : ℝ) ^ d) ≠ 0 := by positivity
  push_cast
  field_simp

theorem calcComplexity_score_nonneg (text : List Char) :
    0 ≤ (calcComplexity text).complexityScore := by
  unfold calcComplexity
  dsimp only
  apply roundTo_nonneg
  have h1 : (0 : ℚ) ≤ (if splitWords text ≠ [] then
      (((splitWords text).filter (fun w => 6 < w.length)).length : ℚ) /
        ((splitWords text).length : ℚ) else 0) := by
    split_ifs <;> positivity
  have h2 : (0 : ℚ) ≤ (if splitWords text ≠ [] then
      (((splitWords text).filter (fun w => w ∈ formalIndicators)).length : ℚ) /
        ((splitWords text).length : ℚ) else 0) := by
    split_ifs <;> positivity
  have h3 : (0 : ℚ) ≤ (if splitWords text ≠ [] then
      ((text.filter isComplexityPunct).length : ℚ) /
        ((splitWords text).length : ℚ) else 0) := by
    split_ifs <;> positivity
  nlinarith

theorem calcAiIndicators_score_bounds (text : List Char) :
    0 ≤ (calcAiIndicators text).aiScore ∧ (calcAiIndicators text).aiScore ≤ 100 := by
  unfold calcAiIndicators
  dsimp only
  set ws := splitWords text with hws
  set sents := splitSentences text with hsents
  set fr : ℚ := if ws ≠ [] then
      ((ws.filter (fun w => w ∈ formalIndicators)).length : ℚ) / (ws.length : ℚ) else 0
    with hfr
  set cands := ws.filter (fun w => w ∉ commonWords && decide (3 < w.length)) with hcands
  set keys := cands.dedup with hkeys
  set rep : ℚ := if keys ≠ [] then
      (((keys.filter (fun w => 2 < cands.count w)).length : ℚ)) / (keys.length : ℚ) else 0
    with hrep
  set lens : List ℚ := sents.map (fun s => (((splitWords s).length : ℕ) : ℚ)) with hlens
  set lenVar : ℚ := if 1 < lens.length then qvariance lens else 0 with hlenVar
  set uni : ℚ := if 0 < lenVar then 1 / (1 + lenVar) else 1 with huni
  set tc : ℚ := (((ws.filter (fun w => w ∈ transitionWords)).length : ℕ) : ℚ) with htc
  set tr : ℚ := if sents ≠ [] then tc / (sents.length : ℚ) else 0 with htr
  have hfr1 : 0 ≤ fr ∧ fr ≤ 1 := by
    rw [hfr]
    split_ifs with h
    · constructor
      · positivity
      · rw [div_le_one (by
          have : ws ≠ [] := h
          have : 0 < ws.length := List.length_pos.mpr this
          exact_mod_cast this)]
        exact_mod_cast List.length_filter_le _ _
    · norm_num
  have hrep1 : 0 ≤ rep ∧ rep ≤ 1 := by
    rw [hrep]
    split_ifs with h
    · constructor
      · positivity
      · rw [div_le_one (by
          have : 0 < keys.length := List.length_pos.mpr h
          exact_mod_cast this)]
        exact_mod_cast List.length_filter_le _ _
    · norm_num
  have hlv : 0 ≤ lenVar := by
    rw [hlenVar]
    split_ifs with h
    · exact qvariance_nonneg lens h
    · norm_num
  have huni1 : 0 ≤ uni ∧ uni ≤ 1 := by
    rw [huni]
    split_ifs with h
    · constructor
      · positivity
      · rw [div_le_one (by linarith)]
        linarith
    · norm_num
  have htr1 : 0 ≤ min tr 1 ∧ min tr 1 ≤ 1 := by
    constructor
    · apply le_min
      · rw [htr]
        split_ifs
        · positivity
        · norm_num
      · norm_num
    · exact min_le_right _ _
  constructor
  · apply roundTo_nonneg
    nlinarith [hfr1.1, hrep1.1, huni1.1, htr1.1]
  · have hle : (fr * 0.3 + rep * 0.2 + uni * 0.3 + min tr 1 * 0.2) * 100 ≤
        ((100 : ℤ) : ℚ) := by
      push_cast
      nlinarith [hfr1.1, hfr1.2, hrep1.1, hrep1.2, huni1.1, huni1.2, htr1.1, htr1.2]
    have := roundTo_le (d := 2) hle
    exact_mod_cast this

theorem calcReadability_flesch_mem (text : List Char) (r : ReadabilityR)
    (hr : calcReadability text = some r) : 0 ≤ r.flesch ∧ r.flesch ≤ 100 := by
  unfold calcReadability at hr
  dsimp only at hr
  split_ifs at hr
  simp only [Option.some.injEq] at hr
  rw [← hr]
  dsimp only
  constructor
  · exact roundTo_nonneg (le_max_left _ _)
  · have hle : max 0 (min 100 (206.835 -
        1.015 * (((splitWords text).length : ℚ) / ((splitSentences text).length : ℚ)) -
        84.6 * (((((splitWords text).map countSyllables).sum : ℕ) : ℚ) /
          ((splitWords text).length : ℚ)))) ≤ ((100 : ℤ) : ℚ) := by
      push_cast
      exact max_le (by norm_num) (min_le_left _ _)
    have := roundTo_le (d := 2) hle
    exact_mod_cast this

theorem burstScore_bounds (cv : ℝ) (cvar : ℚ) (h1 : 0 ≤ cv) (h2 : 0 ≤ cvar) :
    0 ≤ roundToR 2 (min 100 ((cv + (cvar : ℝ)) * 50)) ∧
      roundToR 2 (min 100 ((cv + (cvar : ℝ)) * 50)) ≤ 100 := by
  have h2R : (0 : ℝ) ≤ (cvar : ℚ) := by exact_mod_cast h2
  constructor
  · apply roundToR_nonneg
    apply le_min (by norm_num)
    nlinarith
  · have hle : min 100 ((cv + ((cvar : ℚ) : ℝ)) * 50) ≤ ((100 : ℤ) : ℝ) := by
      push_cast
      exact min_le_left _ _
    have := roundToR_le (d := 2) hle
    exact_mod_cast this

theorem calcBurstiness_score_bounds (text : List Char) (b : BurstinessR)
    (hb : calcBurstiness text = some b) : 0 ≤ b.score ∧ b.score ≤ 100 := by
  unfold calcBurstiness at hb
  dsimp only at hb
  by_cases hcond :
      (List.map (fun s => (((splitWords s).length : ℕ) : ℚ)) (splitSentences text)).length < 2
  · rw [if_pos hcond] at hb
    exact absurd hb (by simp)
  · rw [if_neg hcond] at hb
    simp only [Option.some.injEq] at hb
    rw [← hb]
    dsimp only
    apply burstScore_bounds
    · split_ifs with h
      · apply div_nonneg (Real.sqrt_nonneg _)
        have : (0 : ℚ) ≤ qmean (List.map (fun s => (((splitWords s).length : ℕ) : ℚ))
            (splitSentences text)) := le_of_lt h
        exact_mod_cast this
      · norm_num
    · split_ifs with h
      · exact qvariance_nonneg _ h
      · norm_num

end Ai2Human

namespace Ai2Human

/-- The spec's clamp to `[0, 100]`. -/
noncomputable def clamp0100 (x : ℝ) : ℝ := min 100 (max 0 x)

/-- Claim C1 (amended): the overall humanness score equals the weighted
blend `0.25·r + 0.25·c + 0.3·(100 − a) + 0.2·b` of [0,100]-clamped
components, where a *failed* sub-computation falls back to the neutral
default 50 for that component only (`r` defaults when readability
errored, `b` when burstiness errored; complexity and AI indicators
never fail).  The clamp is applied literally to the readability
component by the code and is a no-op on the other three, whose values
always lie inside [0, 100]. -/
theorem claim_C1_overall_blend (text : List Char) :
    (overallScoreOf text).score =
      roundToR 2
        (clamp0100 ((((calcReadability text).map (fun r => r.flesch)).getD 50 : ℚ) : ℝ) * 0.25 +
         clamp0100 (((calcComplexity text).complexityScore : ℚ) : ℝ) * 0.25 +
         clamp0100 (100 - (((calcAiIndicators text).aiScore : ℚ) : ℝ)) * 0.3 +
         clamp0100 (((calcBurstiness text).map (fun b => b.score)).getD 50) * 0.2) := by
  unfold overallScoreOf calcOverall clamp0100
  dsimp only
  congr 1
  have hc := calcComplexity_score_nonneg text
  have hcR : (0 : ℝ) ≤ ((calcComplexity text).complexityScore : ℚ) := by exact_mod_cast hc
  have ha := calcAiIndicators_score_bounds text
  have ha0 : (0 : ℝ) ≤ ((calcAiIndicators text).aiScore : ℚ) := by exact_mod_cast ha.1
  have ha1 : (((calcAiIndicators text).aiScore : ℚ) : ℝ) ≤ 100 := by exact_mod_cast ha.2
  have hcterm : min 100 (max 0 (((calcComplexity text).complexityScore : ℚ) : ℝ)) =
      min 100 (((calcComplexity text).complexityScore : ℚ) : ℝ) := by
    rw [max_eq_right hcR]
  have haterm : min 100 (max 0 (100 - (((calcAiIndicators text).aiScore : ℚ) : ℝ))) =
      100 - (((calcAiIndicators text).aiScore : ℚ) : ℝ) := by
    rw [max_eq_right (by linarith), min_eq_right (by linarith)]
  have hbterm : min 100 (max 0 (((calcBurstiness text).map (fun b => b.score)).getD 50)) =
      ((calcBurstiness text).map (fun b => b.score)).getD 50 := by
    cases hb : calcBurstiness text with
    | none => norm_num
    | some b =>
      have hbd := calcBurstiness_score_bounds text b hb
      simp only [Option.map_some', Option.getD_some]
      rw [max_eq_right hbd.1, min_eq_right hbd.2]
  rw [hcterm, haterm, hbterm]

/-- Claim C1 counterexample: for the text `"A."` the burstiness
sub-computation fails (a single sentence), yet the overall score is 56
with a readability component of 100 — the other components do *not*
fall back to 50, refuting the claim that any sub-computation failure
makes every component default to 50 (which would force a score of 50). -/
theorem claim_C1_counterexample :
    calcBurstiness "A.".data = none ∧
    (overallScoreOf "A.".data).score = 56 ∧
    (overallScoreOf "A.".data).compReadability = 100 ∧
    (56 : ℝ) ≠ 50 ∧ (100 : ℝ) ≠ 50 := by
  have hsents : splitSentences "A.".data = ["A".data] := by decide
  have hwords : splitWords "A.".data = ["a".data] := by decide
  have hwords2 : splitWords "A".data = ["a".data] := by decide
  have hB : calcBurstiness "A.".data = none := by
    unfold calcBurstiness
    dsimp only
    rw [if_pos (by rw [hsents]; simp)]
  have h0 : roundTo 2 0 = 0 := by
    have := roundTo_intCast 2 0
    push_cast at this
    simpa using this
  have hA : calcReadability "A.".data = some ⟨100, 0, 0, 0, 0, "very_easy"⟩ := by
    unfold calcReadability
    dsimp only
    rw [hsents, hwords]
    rw [if_neg (by simp)]
    have hsyll : (List.map countSyllables ["a".data]).sum = 1 := by decide
    have hchars : (List.map List.length ["a".data]).sum = 1 := by decide
    rw [hsyll, hchars]
    simp only [List.length_cons, List.length_nil, Nat.cast_one]
    norm_num
    refine ⟨roundTo_hundred 2, h0, ?_⟩
    unfold readabilityLevel
    norm_num
  have hC : (calcComplexity "A.".data).complexityScore = 0 := by
    unfold calcComplexity
    dsimp only
    rw [show splitWords ['A', '.'] = [['a']] by decide]
    rw [show (List.filter (fun (w : List Char) => decide (6 < w.length)) [['a']]).length = 0 by
      decide]
    rw [show (List.filter (fun (w : List Char) => decide (w ∈ formalIndicators))
      [['a']]).length = 0 by decide]
    rw [show (List.filter isComplexityPunct ['A', '.']).length = 0 by decide]
    norm_num
    exact h0
  have hI : (calcAiIndicators "A.".data).aiScore = 30 := by
    unfold calcAiIndicators
    dsimp only
    rw [hsents, hwords]
    rw [show (List.filter (fun (w : List Char) => decide (w ∈ formalIndicators))
      ["a".data]).length = 0 by decide]
    rw [show List.filter (fun (w : List Char) => decide (w ∉ commonWords) &&
      decide (3 < w.length)) ["a".data] = [] by decide]
    rw [show (List.filter (fun (w : List Char) => decide (w ∈ transitionWords))
      ["a".data]).length = 0 by decide]
    rw [show List.map (fun (s : List Char) => (((splitWords s).length : ℕ) : ℚ))
      ["A".data] = [1] by simp [hwords2]]
    norm_num
    have h30 : roundTo 2 30 = 30 := by
      have := roundTo_intCast 2 30
      push_cast at this
      simpa using this
    exact h30
  have h56 : (overallScoreOf "A.".data).score = 56 := by
    unfold overallScoreOf calcOverall
    dsimp only
    rw [hA, hC, hI, hB]
    simp only [Option.map_some', Option.getD_some, Option.map_none', Option.getD_none]
    norm_num
    have := roundToR_intCast 2 56
    push_cast at this
    simpa using this
  have h100 : (overallScoreOf "A.".data).compReadability = 100 := by
    unfold overallScoreOf calcOverall
    dsimp only
    rw [hA]
    simp only [Option.map_some', Option.getD_some]
    norm_num
    have := roundToR_intCast 2 100
    push_cast at this
    simpa using this
  exact ⟨hB, h56, h100, by norm_num, by norm_num⟩

end Ai2Human

namespace Ai2Human

theorem claim_C10_progress_witness :
    ∃ j : Job, (processBatch [] ["a".data, "b".data] "balanced" "B"
        (fun i => decide (i = 0)) [1, 0] 0).1 = ("B", j) :: [] ∧
      j.completed = ((List.range ["a".data, "b".data].length).filter
        (fun i => decide (i = 0))).length ∧
      j.total = ["a".data, "b".data].length ∧
      j.status = "completed" ∧
      ((∃ i ∈ List.range ["a".data, "b".data].length,
          (fun i => decide (i = 0)) i = false) →
        progressPercentage j < 100) :=
  claim_C10_progress [] ["a".data, "b".data] "balanced" "B" (fun i => decide (i = 0))
    [1, 0] 0 (by decide) (by decide)
    (by
      show [1, 0].Perm (List.range 2)
      rw [show List.range 2 = [0, 1] from rfl]
      exact List.Perm.swap 0 1 [])

end Ai2Human
